import Mathlib

/-!
# adn::threading::concurrent_queue

A shallow embedding of `include/adn/threading/concurrent_queue.hpp`.

* The object state is the triple of data members `elements`, `exited`, `max_length`; the
  recursive mutex and the condition variable carry no data.  Every member function holds the
  lock for its whole body except inside `condvar.wait_for`, so a call is one atomic step, and
  a `wait_for` is the place where other threads act on the queue.
* `std::list::front` and `std::list::pop_front` on an empty list have undefined behaviour;
  the embedding makes this an explicit outcome instead of choosing a value.
* A `pop` whose wait schedule is used up while it would still be waiting has not returned; this
  is a third outcome.
* `size_t` and list lengths are natural numbers: the code only compares them.
* Clock readings are integers counted in ticks of the steady clock, which are nanoseconds.
  The elapsed time of `pop_timed` goes through the two conversions of the source, to `double`
  seconds and then to `float`, both rounded to nearest with ties to even. A `float` is written
  as the whole number of units of `2^-149` second that it is worth, a `double` as a whole number
  of units of `2^-1074`; the time to wait is a finite `float`.
-/

namespace adn.threading

/-- Result of running a member function. -/
inductive Outcome (β : Type) where
  /-- The call returned. -/
  | done (r : β)
  /-- The call executed `front()` or `pop_front()` on an empty `std::list`. -/
  | undefined
  /-- The call is still inside its wait loop when the schedule of wake-ups ends. -/
  | blocked
deriving DecidableEq

/-- Sequencing of outcomes: the first outcome that is not `done` ends the computation. -/
def Outcome.bind {β γ : Type} : Outcome β → (β → Outcome γ) → Outcome γ
  | Outcome.done r, f => f r
  | Outcome.undefined, _ => Outcome.undefined
  | Outcome.blocked, _ => Outcome.blocked

/-- The call `std::list::front()`. -/
def list_front {α : Type} : List α → Outcome α
  | [] => Outcome.undefined
  | x :: _ => Outcome.done x

/-- The call `std::list::pop_front()`. -/
def list_pop_front {α : Type} : List α → Outcome (List α)
  | [] => Outcome.undefined
  | _ :: rest => Outcome.done rest

/-- Data members of `concurrent_queue<type>`. -/
structure concurrent_queue (α : Type) where
  /-- The member `std::list<type> elements`, front first. -/
  elements : List α
  /-- The member `std::atomic<bool> exited`. -/
  exited : Bool
  /-- The member `std::optional<size_t> max_length`. -/
  max_length : Option Nat
deriving DecidableEq

/-- The constructor: `max_length(max_queue_length)`, `exited = false`, no elements. -/
def concurrent_queue.new {α : Type} (max_queue_length : Option Nat) : concurrent_queue α :=
  { elements := [], exited := false, max_length := max_queue_length }

/-- The member `running()`: `return !exited;`. -/
def concurrent_queue.running {α : Type} (q : concurrent_queue α) : Bool :=
  !q.exited

/-- The member `size()`: `return elements.size();`. -/
def concurrent_queue.size {α : Type} (q : concurrent_queue α) : Nat :=
  q.elements.length

/-- The member `stop()`: `exited = true; elements.clear();` (then `notify_all`). -/
def concurrent_queue.stop {α : Type} (q : concurrent_queue α) : concurrent_queue α :=
  { q with exited := true, elements := [] }

/-- The test `max_length.has_value() and elements.size() >= max_length`. -/
def concurrent_queue.at_capacity {α : Type} (q : concurrent_queue α) : Bool :=
  match q.max_length with
  | some m => decide (q.elements.length ≥ m)
  | none => false

/-- The member `push(value)`: returns false when exited; otherwise `pop_front()` when the length
has reached `max_length`, then `push_back(value)`, and returns true. -/
def concurrent_queue.push {α : Type} (q : concurrent_queue α) (value : α) :
    Outcome (Bool × concurrent_queue α) :=
  if q.exited then Outcome.done (false, q)
  else if q.at_capacity then
    (list_pop_front q.elements).bind fun es =>
      Outcome.done (true, { q with elements := es ++ [value] })
  else Outcome.done (true, { q with elements := q.elements ++ [value] })

/-- The member `push_front(value)`: returns false when exited; otherwise `pop_front()` when the
length has reached `max_length`, then `push_front(value)`, and returns true. -/
def concurrent_queue.push_front {α : Type} (q : concurrent_queue α) (value : α) :
    Outcome (Bool × concurrent_queue α) :=
  if q.exited then Outcome.done (false, q)
  else if q.at_capacity then
    (list_pop_front q.elements).bind fun es =>
      Outcome.done (true, { q with elements := value :: es })
  else Outcome.done (true, { q with elements := value :: q.elements })

/-- What one other thread does to the queue while the waiting thread has released the lock:
a call of `push`, of `push_front`, of `stop`, or a consumer that takes the front element. -/
inductive other_thread (α : Type) where
  | push (value : α)
  | push_front (value : α)
  | take
  | stop
deriving DecidableEq

/-- Effect of one action of another thread on the queue. A consumer takes the front element
of a running non-empty queue and otherwise leaves the queue as it is. -/
def interfere {α : Type} (q : concurrent_queue α) : other_thread α → Outcome (concurrent_queue α)
  | other_thread.push value => (q.push value).bind fun r => Outcome.done r.2
  | other_thread.push_front value => (q.push_front value).bind fun r => Outcome.done r.2
  | other_thread.take =>
    if q.exited then Outcome.done q
    else
      match q.elements with
      | [] => Outcome.done q
      | _ :: rest => Outcome.done { q with elements := rest }
  | other_thread.stop => Outcome.done q.stop

/-- One call of `condvar.wait_for(lock, 100ms, ...)`: the lock is released, the other threads
act in the given order, the lock is taken again. -/
def wait_for {α : Type} : concurrent_queue α → List (other_thread α) → Outcome (concurrent_queue α)
  | q, [] => Outcome.done q
  | q, a :: rest => (interfere q a).bind fun q1 => wait_for q1 rest

/-- The lambda `need_stop` of `pop`: `exited or !elements.empty()`. -/
def need_stop {α : Type} (q : concurrent_queue α) : Bool :=
  q.exited || !q.elements.isEmpty

/-- The loop `for( ; !need_stop() ; ) condvar.wait_for(lock, 100ms, need_stop);` of `pop`.
Each iteration uses the next entry of the schedule; the count of iterations is returned with
the state in which the loop ends. -/
def pop_wait {α : Type} :
    List (List (other_thread α)) → concurrent_queue α → Nat → Outcome (concurrent_queue α × Nat)
  | [], q, waits => if need_stop q then Outcome.done (q, waits) else Outcome.blocked
  | w :: rest, q, waits =>
    if need_stop q then Outcome.done (q, waits)
    else (wait_for q w).bind fun q1 => pop_wait rest q1 (waits + 1)

/-- What a call of `pop` or `pop_timed` leaves behind: the returned `bool`, the caller's
variable `value`, the queue, and the number of `wait_for` calls made. -/
structure pop_result (α : Type) where
  ret : Bool
  value : α
  queue : concurrent_queue α
  waits : Nat
deriving DecidableEq

/-- The member `pop(value)`: the wait loop, then `if(exited) return false;`, then
`value = elements.front(); elements.pop_front(); return true;`. -/
def concurrent_queue.pop {α : Type} (q : concurrent_queue α) (value : α)
    (schedule : List (List (other_thread α))) : Outcome (pop_result α) :=
  (pop_wait schedule q 0).bind fun s =>
    if s.1.exited then Outcome.done { ret := false, value := value, queue := s.1, waits := s.2 }
    else
      (list_front s.1.elements).bind fun x =>
        (list_pop_front s.1.elements).bind fun es =>
          Outcome.done { ret := true, value := x, queue := { s.1 with elements := es }, waits := s.2 }

/-- Index of the highest set bit of `n`, by halving at most `fuel` times. -/
def floor_log2_fuel : Nat → Nat → Nat
  | 0, _ => 0
  | fuel + 1, n => if 2 ≤ n then floor_log2_fuel fuel (n / 2) + 1 else 0

/-- Index of the highest set bit of `n`, and 0 for 0. -/
def floor_log2 (n : Nat) : Nat :=
  floor_log2_fuel n n

/-- The whole number nearest to `n / d`; of two equally near ones, the even one. -/
def round_nearest_even (n d : Nat) : Nat :=
  if 2 * (n % d) < d then n / d
  else if d < 2 * (n % d) then n / d + 1
  else if (n / d) % 2 = 0 then n / d else n / d + 1

/-- Rounding of `n / d` to a binary floating-point number with `p` significant bits, to
nearest with ties to even. Values are counted in units of the least positive number of the
format, so below `2^p` units the result is a whole number of units and above it a multiple of
the power of two that leaves `p` bits. -/
def round_binary (p n d : Nat) : Nat :=
  round_nearest_even n (d <<< (floor_log2 (n / d) - (p - 1))) <<< (floor_log2 (n / d) - (p - 1))

/-- The denominator of `std::chrono::steady_clock::period`: the clock counts nanoseconds. -/
def ticks_per_second : Nat :=
  1000000000

/-- The value of `std::chrono::duration<double>(now - start_time).count()` for a count of
`ticks`, in units of `2^-1074`: the count is converted to `double` and divided by the `double`
`1e9`, each correctly rounded. -/
def double_seconds (ticks : Nat) : Nat :=
  round_binary 53 (round_binary 53 (ticks <<< 1074) 1) ticks_per_second

/-- The conversion of a `double` (in units of `2^-1074`) to `float` (in units of `2^-149`). -/
def float_of_double (d : Nat) : Nat :=
  round_binary 24 d (1 <<< 925)

/-- The variable `float dt` of `pop_timed` for an elapsed count of ticks, in units of
`2^-149` second. -/
def float_dt (elapsed : Int) : Int :=
  if elapsed < 0 then -((float_of_double (double_seconds elapsed.natAbs) : Nat) : Int)
  else ((float_of_double (double_seconds elapsed.natAbs) : Nat) : Int)

/-- The number of units of `2^-149` is the value of a `float`: it has at most 24 significant
bits. -/
def is_binary32 (t : Int) : Prop :=
  ∃ m k : Nat, m < 2 ^ 24 ∧ t.natAbs = m * 2 ^ k

/-- One iteration of the loop of `pop_timed` as seen from outside: what the other threads do
during its `wait_for`, and the reading of `steady_clock::now()` taken after it. -/
structure poll (α : Type) where
  interference : List (other_thread α)
  now : Int
deriving DecidableEq

/-- The loop of `pop_timed`. The `Bool` tells how the loop was left: `true` when control goes
on to the statements after the loop (the condition `!exited` failed, or `break`), `false` when
the body executed `return false` (exited after the wait, or `dt > time_to_wait`). The time to
wait is a `float` in units of `2^-149` second, the start time and the readings are ticks. -/
def pop_timed_loop {α : Type} (time_to_wait start_time : Int) :
    List (poll α) → concurrent_queue α → Nat → Outcome (Bool × concurrent_queue α × Nat)
  | [], q, waits => if q.exited then Outcome.done (true, q, waits) else Outcome.blocked
  | p :: rest, q, waits =>
    if q.exited then Outcome.done (true, q, waits)
    else
      (wait_for q p.interference).bind fun q1 =>
        if !q1.elements.isEmpty then Outcome.done (true, q1, waits + 1)
        else if q1.exited then Outcome.done (false, q1, waits + 1)
        else if float_dt (p.now - start_time) > time_to_wait then
          Outcome.done (false, q1, waits + 1)
        else pop_timed_loop time_to_wait start_time rest q1 (waits + 1)

/-- The member `pop_timed(value, time_to_wait)`: `start_time` is the clock reading taken on
entry; after the loop, `value = elements.front(); elements.pop_front(); return true;`. -/
def concurrent_queue.pop_timed {α : Type} (q : concurrent_queue α) (value : α)
    (time_to_wait start_time : Int) (polls : List (poll α)) : Outcome (pop_result α) :=
  (pop_timed_loop time_to_wait start_time polls q 0).bind fun s =>
    if s.1 then
      (list_front s.2.1.elements).bind fun x =>
        (list_pop_front s.2.1.elements).bind fun es =>
          Outcome.done
            { ret := true, value := x, queue := { s.2.1 with elements := es }, waits := s.2.2 }
    else Outcome.done { ret := false, value := value, queue := s.2.1, waits := s.2.2 }

/-- The queue was constructed with capacity `C` and holds at most `C` elements. -/
def within_capacity {α : Type} (C : Nat) (q : concurrent_queue α) : Prop :=
  q.max_length = some C ∧ q.elements.length ≤ C

/-- A call made by a client thread, with everything the call depends on besides the queue. -/
inductive call (α : Type) where
  | push (value : α)
  | push_front (value : α)
  | pop (value : α) (schedule : List (List (other_thread α)))
  | pop_timed (value : α) (time_to_wait start_time : Int) (polls : List (poll α))
  | stop

/-- The queue after one call. -/
def apply_call {α : Type} (q : concurrent_queue α) : call α → Outcome (concurrent_queue α)
  | call.push value => (q.push value).bind fun r => Outcome.done r.2
  | call.push_front value => (q.push_front value).bind fun r => Outcome.done r.2
  | call.pop value schedule => (q.pop value schedule).bind fun r => Outcome.done r.queue
  | call.pop_timed value time_to_wait start_time polls =>
    (q.pop_timed value time_to_wait start_time polls).bind fun r => Outcome.done r.queue
  | call.stop => Outcome.done q.stop

/-- The queue after a sequence of calls made one after the other. -/
def run {α : Type} : concurrent_queue α → List (call α) → Outcome (concurrent_queue α)
  | q, [] => Outcome.done q
  | q, c :: rest => (apply_call q c).bind fun q1 => run q1 rest

/-- The calls `push(v1)`, ..., `push(vn)` in this order: the returned values and the queue. -/
def push_all {α : Type} :
    concurrent_queue α → List α → Outcome (List Bool × concurrent_queue α)
  | q, [] => Outcome.done ([], q)
  | q, v :: rest =>
    (q.push v).bind fun r => (push_all r.2 rest).bind fun s => Outcome.done (r.1 :: s.1, s.2)

/-- A number of calls of `pop`, each with the same caller variable handed on and the same
schedule: the returned value and the delivered value of each call, and the queue. -/
def pop_all {α : Type} (schedule : List (List (other_thread α))) :
    Nat → concurrent_queue α → α → Outcome (List (Bool × α) × concurrent_queue α)
  | 0, q, _ => Outcome.done ([], q)
  | n + 1, q, value =>
    (q.pop value schedule).bind fun r =>
      (pop_all schedule n r.queue r.value).bind fun s =>
        Outcome.done ((r.ret, r.value) :: s.1, s.2)

/-- The action of another thread is a call of `stop`. -/
def other_thread.is_stop {α : Type} : other_thread α → Bool
  | other_thread.stop => true
  | _ => false

/-- No other thread calls `stop` during the wait. -/
def wait_without_stop {α : Type} (w : List (other_thread α)) : Bool :=
  w.all fun a => !a.is_stop

/-- The call is one of `push`, `push_front`, `pop`, `pop_timed`, and no other thread calls
`stop` while it waits. -/
def call.without_stop {α : Type} : call α → Bool
  | call.push _ => true
  | call.push_front _ => true
  | call.pop _ schedule => schedule.all wait_without_stop
  | call.pop_timed _ _ _ polls => polls.all fun p => wait_without_stop p.interference
  | call.stop => false

/-- The call is a call of `pop_timed`. -/
def call.is_pop_timed {α : Type} : call α → Bool
  | call.pop_timed _ _ _ _ => true
  | _ => false

/-- The queue is unbounded or was constructed with a capacity of at least 1. -/
def capacity_positive {α : Type} (q : concurrent_queue α) : Prop :=
  ∀ C, q.max_length = some C → 1 ≤ C

@[simp] theorem bind_done {β γ : Type} (r : β) (f : β → Outcome γ) :
    (Outcome.done r).bind f = f r := rfl

@[simp] theorem bind_undefined {β γ : Type} (f : β → Outcome γ) :
    (Outcome.undefined : Outcome β).bind f = Outcome.undefined := rfl

@[simp] theorem bind_blocked {β γ : Type} (f : β → Outcome γ) :
    (Outcome.blocked : Outcome β).bind f = Outcome.blocked := rfl

/-- A sequenced computation is done exactly when both parts are. -/
theorem bind_eq_done {β γ : Type} (o : Outcome β) (f : β → Outcome γ) (c : γ) :
    o.bind f = Outcome.done c ↔ ∃ b, o = Outcome.done b ∧ f b = Outcome.done c := by
  cases o <;> simp

/-- A push on a running queue that returns has stored the value: the queue is not empty. -/
theorem push_done_length_pos {α : Type} (q q1 : concurrent_queue α) (v : α) (r : Bool)
    (hrun : q.exited = false) (h : q.push v = Outcome.done (r, q1)) :
    0 < q1.elements.length := by
  unfold concurrent_queue.push at h
  rw [hrun] at h
  simp only [Bool.false_eq_true, if_false] at h
  split at h
  · cases hes : q.elements with
    | nil => rw [hes] at h; simp [list_pop_front] at h
    | cons x rest =>
      rw [hes] at h
      simp only [list_pop_front, bind_done, Outcome.done.injEq, Prod.mk.injEq] at h
      rw [← h.2]; simp
  · simp only [Outcome.done.injEq, Prod.mk.injEq] at h
    rw [← h.2]; simp

/-! ## The capacity bound -/

/-- With a capacity of at least 1, `push` on a queue within its capacity returns and the
queue stays within its capacity. -/
theorem push_within_capacity {α : Type} (C : Nat) (hC : 1 ≤ C) (q : concurrent_queue α) (v : α)
    (hmax : q.max_length = some C) (hlen : q.elements.length ≤ C) :
    ∃ r q1, q.push v = Outcome.done (r, q1) ∧ q1.max_length = some C ∧
      q1.elements.length ≤ C := by
  rcases q with ⟨es, ex, ml⟩
  simp only at hmax hlen
  subst hmax
  cases ex with
  | true =>
    exact ⟨false, { elements := es, exited := true, max_length := some C },
      by simp [concurrent_queue.push], rfl, hlen⟩
  | false =>
    by_cases hfull : C ≤ es.length
    · cases es with
      | nil => simp at hfull; omega
      | cons x xs =>
        have hfull1 : C ≤ xs.length + 1 := by simpa using hfull
        refine ⟨true, { elements := xs ++ [v], exited := false, max_length := some C },
          by simp [concurrent_queue.push, concurrent_queue.at_capacity, hfull1, list_pop_front],
          rfl, ?_⟩
        simp at hlen ⊢; omega
    · refine ⟨true, { elements := es ++ [v], exited := false, max_length := some C },
        by simp [concurrent_queue.push, concurrent_queue.at_capacity, hfull], rfl, ?_⟩
      simp; omega

/-- With a capacity of at least 1, `push_front` on a queue within its capacity returns and
the queue stays within its capacity. -/
theorem push_front_within_capacity {α : Type} (C : Nat) (hC : 1 ≤ C) (q : concurrent_queue α)
    (v : α) (hmax : q.max_length = some C) (hlen : q.elements.length ≤ C) :
    ∃ r q1, q.push_front v = Outcome.done (r, q1) ∧ q1.max_length = some C ∧
      q1.elements.length ≤ C := by
  rcases q with ⟨es, ex, ml⟩
  simp only at hmax hlen
  subst hmax
  cases ex with
  | true =>
    exact ⟨false, { elements := es, exited := true, max_length := some C },
      by simp [concurrent_queue.push_front], rfl, hlen⟩
  | false =>
    by_cases hfull : C ≤ es.length
    · cases es with
      | nil => simp at hfull; omega
      | cons x xs =>
        have hfull1 : C ≤ xs.length + 1 := by simpa using hfull
        refine ⟨true, { elements := v :: xs, exited := false, max_length := some C },
          by simp [concurrent_queue.push_front, concurrent_queue.at_capacity, hfull1,
            list_pop_front],
          rfl, ?_⟩
        simp at hlen ⊢; omega
    · refine ⟨true, { elements := v :: es, exited := false, max_length := some C },
        by simp [concurrent_queue.push_front, concurrent_queue.at_capacity, hfull], rfl, ?_⟩
      simp; omega

/-- A `push` that returns keeps the queue within its capacity. -/
theorem push_keeps_capacity {α : Type} (C : Nat) (q q1 : concurrent_queue α) (v : α) (r : Bool)
    (hq : within_capacity C q) (h : q.push v = Outcome.done (r, q1)) :
    within_capacity C q1 := by
  rcases q with ⟨es, ex, ml⟩
  obtain ⟨hmax, hlen⟩ := hq
  simp only at hmax hlen
  subst hmax
  cases ex with
  | true =>
    simp only [concurrent_queue.push, if_true, Outcome.done.injEq, Prod.mk.injEq] at h
    rw [← h.2]; exact ⟨rfl, hlen⟩
  | false =>
    by_cases hfull : C ≤ es.length
    · cases es with
      | nil =>
        have hC0 : C = 0 := by simpa using hfull
        subst hC0
        simp [concurrent_queue.push, concurrent_queue.at_capacity, list_pop_front] at h
      | cons x xs =>
        have hfull1 : C ≤ xs.length + 1 := by simpa using hfull
        simp only [concurrent_queue.push, concurrent_queue.at_capacity, hfull1, ge_iff_le,
          List.length_cons, decide_True, if_true, list_pop_front, bind_done, Bool.false_eq_true,
          if_false, Outcome.done.injEq, Prod.mk.injEq] at h
        rw [← h.2]
        refine ⟨rfl, ?_⟩
        simp at hlen ⊢; omega
    · simp only [concurrent_queue.push, concurrent_queue.at_capacity, hfull, ge_iff_le,
        decide_False, Bool.false_eq_true, if_false, Outcome.done.injEq, Prod.mk.injEq] at h
      rw [← h.2]
      refine ⟨rfl, ?_⟩
      simp; omega

/-- A `push_front` that returns keeps the queue within its capacity. -/
theorem push_front_keeps_capacity {α : Type} (C : Nat) (q q1 : concurrent_queue α) (v : α)
    (r : Bool) (hq : within_capacity C q) (h : q.push_front v = Outcome.done (r, q1)) :
    within_capacity C q1 := by
  rcases q with ⟨es, ex, ml⟩
  obtain ⟨hmax, hlen⟩ := hq
  simp only at hmax hlen
  subst hmax
  cases ex with
  | true =>
    simp only [concurrent_queue.push_front, if_true, Outcome.done.injEq, Prod.mk.injEq] at h
    rw [← h.2]; exact ⟨rfl, hlen⟩
  | false =>
    by_cases hfull : C ≤ es.length
    · cases es with
      | nil =>
        have hC0 : C = 0 := by simpa using hfull
        subst hC0
        simp [concurrent_queue.push_front, concurrent_queue.at_capacity, list_pop_front] at h
      | cons x xs =>
        have hfull1 : C ≤ xs.length + 1 := by simpa using hfull
        simp only [concurrent_queue.push_front, concurrent_queue.at_capacity, hfull1, ge_iff_le,
          List.length_cons, decide_True, if_true, list_pop_front, bind_done, Bool.false_eq_true,
          if_false, Outcome.done.injEq, Prod.mk.injEq] at h
        rw [← h.2]
        refine ⟨rfl, ?_⟩
        simp at hlen ⊢; omega
    · simp only [concurrent_queue.push_front, concurrent_queue.at_capacity, hfull, ge_iff_le,
        decide_False, Bool.false_eq_true, if_false, Outcome.done.injEq, Prod.mk.injEq] at h
      rw [← h.2]
      refine ⟨rfl, ?_⟩
      simp; omega

/-- Removing the front element keeps the queue within its capacity. -/
theorem drop_front_keeps_capacity {α : Type} (C : Nat) (q : concurrent_queue α) (x : α)
    (rest : List α) (hq : within_capacity C q) (hes : q.elements = x :: rest) :
    within_capacity C { q with elements := rest } := by
  obtain ⟨hmax, hlen⟩ := hq
  refine ⟨hmax, ?_⟩
  rw [hes] at hlen
  simp at hlen ⊢; omega

/-- What another thread does keeps the queue within its capacity. -/
theorem interfere_keeps_capacity {α : Type} (C : Nat) (q q1 : concurrent_queue α)
    (a : other_thread α) (hq : within_capacity C q) (h : interfere q a = Outcome.done q1) :
    within_capacity C q1 := by
  cases a with
  | push value =>
    simp only [interfere] at h
    obtain ⟨r, hr, h2⟩ := (bind_eq_done _ _ _).1 h
    simp only [Outcome.done.injEq] at h2
    subst h2
    exact push_keeps_capacity C q r.2 value r.1 hq hr
  | push_front value =>
    simp only [interfere] at h
    obtain ⟨r, hr, h2⟩ := (bind_eq_done _ _ _).1 h
    simp only [Outcome.done.injEq] at h2
    subst h2
    exact push_front_keeps_capacity C q r.2 value r.1 hq hr
  | take =>
    simp only [interfere] at h
    split at h
    · simp only [Outcome.done.injEq] at h; subst h; exact hq
    · split at h
      · simp only [Outcome.done.injEq] at h; subst h; exact hq
      · rename_i x rest hes
        simp only [Outcome.done.injEq] at h; subst h
        exact drop_front_keeps_capacity C q x rest hq hes
  | stop =>
    simp only [interfere, Outcome.done.injEq] at h
    subst h
    exact ⟨hq.1, by simp [concurrent_queue.stop]⟩

/-- A wait keeps the queue within its capacity. -/
theorem wait_for_keeps_capacity {α : Type} (C : Nat) (w : List (other_thread α)) :
    ∀ q q1 : concurrent_queue α, within_capacity C q → wait_for q w = Outcome.done q1 →
      within_capacity C q1 := by
  induction w with
  | nil =>
    intro q q1 hq h
    simp only [wait_for, Outcome.done.injEq] at h
    subst h; exact hq
  | cons a rest ih =>
    intro q q1 hq h
    simp only [wait_for] at h
    obtain ⟨q2, h2, h3⟩ := (bind_eq_done _ _ _).1 h
    exact ih q2 q1 (interfere_keeps_capacity C q q2 a hq h2) h3

/-- The wait loop of `pop` keeps the queue within its capacity. -/
theorem pop_wait_keeps_capacity {α : Type} (C : Nat) (schedule : List (List (other_thread α))) :
    ∀ (q q1 : concurrent_queue α) (n m : Nat), within_capacity C q →
      pop_wait schedule q n = Outcome.done (q1, m) → within_capacity C q1 := by
  induction schedule with
  | nil =>
    intro q q1 n m hq h
    simp only [pop_wait] at h
    split at h
    · simp only [Outcome.done.injEq, Prod.mk.injEq] at h
      rw [← h.1]; exact hq
    · cases h
  | cons w rest ih =>
    intro q q1 n m hq h
    simp only [pop_wait] at h
    split at h
    · simp only [Outcome.done.injEq, Prod.mk.injEq] at h
      rw [← h.1]; exact hq
    · obtain ⟨q2, h2, h3⟩ := (bind_eq_done _ _ _).1 h
      exact ih q2 q1 (n + 1) m (wait_for_keeps_capacity C w q q2 hq h2) h3

/-- A `pop` that returns keeps the queue within its capacity. -/
theorem pop_keeps_capacity {α : Type} (C : Nat) (q : concurrent_queue α) (value : α)
    (schedule : List (List (other_thread α))) (r : pop_result α)
    (hq : within_capacity C q) (h : q.pop value schedule = Outcome.done r) :
    within_capacity C r.queue := by
  simp only [concurrent_queue.pop] at h
  obtain ⟨s, hs, h2⟩ := (bind_eq_done _ _ _).1 h
  have hq1 : within_capacity C s.1 := pop_wait_keeps_capacity C schedule q s.1 0 s.2 hq hs
  split at h2
  · simp only [Outcome.done.injEq] at h2; subst h2; exact hq1
  · cases hes : s.1.elements with
    | nil => simp [hes, list_front] at h2
    | cons x rest =>
      simp only [hes, list_front, list_pop_front, bind_done, Outcome.done.injEq] at h2
      subst h2
      exact drop_front_keeps_capacity C s.1 x rest hq1 hes

/-- The loop of `pop_timed` keeps the queue within its capacity. -/
theorem pop_timed_loop_keeps_capacity {α : Type} (C : Nat) (time_to_wait start_time : Int)
    (polls : List (poll α)) :
    ∀ (q q1 : concurrent_queue α) (n m : Nat) (b : Bool), within_capacity C q →
      pop_timed_loop time_to_wait start_time polls q n = Outcome.done (b, q1, m) →
      within_capacity C q1 := by
  induction polls with
  | nil =>
    intro q q1 n m b hq h
    simp only [pop_timed_loop] at h
    split at h
    · simp only [Outcome.done.injEq, Prod.mk.injEq] at h
      rw [← h.2.1]; exact hq
    · cases h
  | cons p rest ih =>
    intro q q1 n m b hq h
    simp only [pop_timed_loop] at h
    split at h
    · simp only [Outcome.done.injEq, Prod.mk.injEq] at h
      rw [← h.2.1]; exact hq
    · obtain ⟨q2, h2, h3⟩ := (bind_eq_done _ _ _).1 h
      have hq2 := wait_for_keeps_capacity C p.interference q q2 hq h2
      split at h3
      · simp only [Outcome.done.injEq, Prod.mk.injEq] at h3
        rw [← h3.2.1]; exact hq2
      · split at h3
        · simp only [Outcome.done.injEq, Prod.mk.injEq] at h3
          rw [← h3.2.1]; exact hq2
        · split at h3
          · simp only [Outcome.done.injEq, Prod.mk.injEq] at h3
            rw [← h3.2.1]; exact hq2
          · exact ih q2 q1 (n + 1) m b hq2 h3

/-- A `pop_timed` that returns keeps the queue within its capacity. -/
theorem pop_timed_keeps_capacity {α : Type} (C : Nat) (q : concurrent_queue α) (value : α)
    (time_to_wait start_time : Int) (polls : List (poll α)) (r : pop_result α)
    (hq : within_capacity C q)
    (h : q.pop_timed value time_to_wait start_time polls = Outcome.done r) :
    within_capacity C r.queue := by
  simp only [concurrent_queue.pop_timed] at h
  obtain ⟨s, hs, h2⟩ := (bind_eq_done _ _ _).1 h
  obtain ⟨b, q1, m⟩ := s
  have hq1 : within_capacity C q1 :=
    pop_timed_loop_keeps_capacity C time_to_wait start_time polls q q1 0 m b hq hs
  simp only at h2
  split at h2
  · cases hes : q1.elements with
    | nil => simp [hes, list_front] at h2
    | cons x rest =>
      simp only [hes, list_front, list_pop_front, bind_done, Outcome.done.injEq] at h2
      subst h2
      exact drop_front_keeps_capacity C q1 x rest hq1 hes
  · simp only [Outcome.done.injEq] at h2; subst h2; exact hq1

/-- Every call that returns keeps the queue within its capacity. -/
theorem apply_call_keeps_capacity {α : Type} (C : Nat) (q q1 : concurrent_queue α) (c : call α)
    (hq : within_capacity C q) (h : apply_call q c = Outcome.done q1) :
    within_capacity C q1 := by
  cases c with
  | push value =>
    simp only [apply_call] at h
    obtain ⟨r, hr, h2⟩ := (bind_eq_done _ _ _).1 h
    simp only [Outcome.done.injEq] at h2
    subst h2
    exact push_keeps_capacity C q r.2 value r.1 hq hr
  | push_front value =>
    simp only [apply_call] at h
    obtain ⟨r, hr, h2⟩ := (bind_eq_done _ _ _).1 h
    simp only [Outcome.done.injEq] at h2
    subst h2
    exact push_front_keeps_capacity C q r.2 value r.1 hq hr
  | pop value schedule =>
    simp only [apply_call] at h
    obtain ⟨r, hr, h2⟩ := (bind_eq_done _ _ _).1 h
    simp only [Outcome.done.injEq] at h2
    subst h2
    exact pop_keeps_capacity C q value schedule r hq hr
  | pop_timed value time_to_wait start_time polls =>
    simp only [apply_call] at h
    obtain ⟨r, hr, h2⟩ := (bind_eq_done _ _ _).1 h
    simp only [Outcome.done.injEq] at h2
    subst h2
    exact pop_timed_keeps_capacity C q value time_to_wait start_time polls r hq hr
  | stop =>
    simp only [apply_call, Outcome.done.injEq] at h
    subst h
    exact ⟨hq.1, by simp [concurrent_queue.stop]⟩

/-- After every sequence of calls that have all returned, a queue constructed with capacity
`C` holds at most `C` elements. With capacity 0 this says nothing of `push` and `push_front`
on the running queue: there they find the queue at capacity and empty, and do not return. -/
theorem run_keeps_capacity {α : Type} (C : Nat) (cs : List (call α)) :
    ∀ q q1 : concurrent_queue α, within_capacity C q → run q cs = Outcome.done q1 →
      within_capacity C q1 := by
  induction cs with
  | nil =>
    intro q q1 hq h
    simp only [run, Outcome.done.injEq] at h
    subst h; exact hq
  | cons c rest ih =>
    intro q q1 hq h
    simp only [run] at h
    obtain ⟨q2, h2, h3⟩ := (bind_eq_done _ _ _).1 h
    exact ih q2 q1 (apply_call_keeps_capacity C q q2 c hq h2) h3

/-! ## C1 -/

/-- C1 (failing input): on a freshly constructed queue of capacity 0 the call `push(1)` finds
`elements.size() >= max_length` true and executes `pop_front()` on the empty list, which is
undefined behaviour; no state with at most 0 stored elements results. -/
theorem push_capacity_zero_undefined :
    (concurrent_queue.new (some 0)).push (1 : Nat) = Outcome.undefined := by
  decide

/-! ## C2 -/

/-- C2 (failing input): after `stop()` the loop of `pop_timed` is skipped because `exited`
is set, there is no test of `exited` after the loop as there is in `pop`, and the call goes on
to `elements.front()` on the list that `stop()` has cleared, which is undefined behaviour,
whatever the time to wait; the call does not return false. -/
theorem pop_timed_after_stop_undefined {α : Type} (q : concurrent_queue α) (value : α)
    (time_to_wait start_time : Int) (polls : List (poll α)) :
    q.stop.pop_timed value time_to_wait start_time polls = Outcome.undefined := by
  cases polls <;>
    simp [concurrent_queue.pop_timed, pop_timed_loop, concurrent_queue.stop, list_front]

/-! ## C3 -/

/-- C3 (failing input): with capacity 0 the single call `push(1)` on a fresh queue executes
`pop_front()` on the empty list; the queue does not end up holding the last 0 values. -/
theorem push_all_capacity_zero_undefined :
    push_all (concurrent_queue.new (some 0)) [(1 : Nat)] = Outcome.undefined := by
  decide

/-- With a capacity of at least 1, pushes on a running queue that respects its capacity keep
exactly the last `C` of the values stored and pushed, in order, and each returns true. -/
theorem push_all_keeps_last {α : Type} (C : Nat) (hC : 1 ≤ C) (vs : List α) :
    ∀ es : List α, es.length ≤ C →
      push_all { elements := es, exited := false, max_length := some C } vs
        = Outcome.done (List.replicate vs.length true,
            { elements := (es ++ vs).drop ((es ++ vs).length - C), exited := false,
              max_length := some C }) := by
  induction vs with
  | nil =>
    intro es hlen
    have h0 : es.length - C = 0 := by omega
    simp [push_all, h0]
  | cons v rest ih =>
    intro es hlen
    by_cases hfull : C ≤ es.length
    · cases es with
      | nil => simp at hfull; omega
      | cons x xs =>
        have hx : xs.length + 1 = C := by simp at hlen hfull; omega
        have h1 := ih (xs ++ [v]) (by simp; omega)
        simp only [push_all, concurrent_queue.push, concurrent_queue.at_capacity, hfull,
          decide_True, if_true, list_pop_front, bind_done, Bool.false_eq_true, if_false, ge_iff_le]
        rw [h1]
        have e1 : (xs ++ [v] ++ rest).length - C = rest.length := by simp; omega
        have e2 : (x :: xs ++ v :: rest).length - C = rest.length + 1 := by simp; omega
        rw [e1, e2]
        simp [List.replicate_succ]
    · have h1 := ih (es ++ [v]) (by simp; omega)
      simp only [push_all, concurrent_queue.push, concurrent_queue.at_capacity, hfull,
        decide_False, if_true, bind_done, Bool.false_eq_true, if_false, ge_iff_le]
      rw [h1]
      simp [List.replicate_succ]

/-- The spec's first scenario: with capacity 2, `push(1)`, `push(2)`, `push(3)` give size 2,
and two pops deliver 2 and then 3. -/
theorem push_all_capacity_two_scenario :
    push_all (concurrent_queue.new (some 2)) [1, 2, 3]
        = Outcome.done ([true, true, true], concurrent_queue.mk [2, 3] false (some 2)) ∧
      (concurrent_queue.mk [2, 3] false (some 2)).size = 2 ∧
      pop_all [] 2 (concurrent_queue.mk [2, 3] false (some 2)) 0
        = Outcome.done ([(true, 2), (true, 3)], concurrent_queue.new (some 2)) := by
  decide

/-! ## C4 -/

/-- Pushes that never reach the capacity append in order and each returns true. -/
theorem push_all_no_overflow {α : Type} (max : Option Nat) (vs : List α) :
    ∀ es : List α, (∀ C, max = some C → es.length + vs.length ≤ C) →
      push_all { elements := es, exited := false, max_length := max } vs
        = Outcome.done (List.replicate vs.length true,
            { elements := es ++ vs, exited := false, max_length := max }) := by
  induction vs with
  | nil => intro es _; simp [push_all]
  | cons v rest ih =>
    intro es hcap
    have hnot : (concurrent_queue.mk es false max).at_capacity = false := by
      unfold concurrent_queue.at_capacity
      cases max with
      | none => rfl
      | some m =>
        have := hcap m rfl
        simp at this
        simp; omega
    have h1 := ih (es ++ [v]) (by
      intro C hC
      have := hcap C hC
      simp at this ⊢; omega)
    simp only [push_all, concurrent_queue.push, hnot, Bool.false_eq_true, if_false, bind_done]
    rw [h1]
    simp [List.replicate_succ]

/-- As many pops as a running queue has elements deliver them front to back, each returning
true, and leave the queue empty. -/
theorem pop_all_delivers {α : Type} (schedule : List (List (other_thread α))) (vs : List α) :
    ∀ (q : concurrent_queue α) (value : α), q.exited = false → q.elements = vs →
      pop_all schedule vs.length q value
        = Outcome.done (vs.map (fun v => (true, v)), { q with elements := [] }) := by
  induction vs with
  | nil =>
    intro q value _ hes
    rcases q with ⟨es, ex, ml⟩
    simp only at hes
    subst hes
    simp [pop_all]
  | cons v rest ih =>
    intro q value hrun hes
    have hpop : q.pop value schedule = Outcome.done
        { ret := true, value := v, queue := { q with elements := rest }, waits := 0 } := by
      cases schedule <;>
        simp [concurrent_queue.pop, pop_wait, need_stop, hrun, hes, list_front, list_pop_front]
    have h1 := ih { q with elements := rest } v hrun rfl
    simp only [List.length_cons, pop_all, hpop, bind_done]
    rw [h1]
    simp

/-- C4: on a fresh queue that is unbounded or whose capacity is at least the number of values,
`push(v1)`, ..., `push(vn)` each return true and store the values in order; the following `n`
calls of `pop` each return true and deliver `v1`, ..., `vn` in this order, and the queue is
empty afterwards. -/
theorem push_then_pop_is_fifo {α : Type} (max : Option Nat) (vs : List α) (value : α)
    (schedule : List (List (other_thread α)))
    (hcap : ∀ C, max = some C → vs.length ≤ C) :
    push_all (concurrent_queue.new max) vs
        = Outcome.done (List.replicate vs.length true,
            { elements := vs, exited := false, max_length := max }) ∧
      pop_all schedule vs.length { elements := vs, exited := false, max_length := max } value
        = Outcome.done (vs.map (fun v => (true, v)), concurrent_queue.new max) := by
  constructor
  · have h := push_all_no_overflow max vs [] (by
      intro C hC
      have := hcap C hC
      simpa using this)
    simpa [concurrent_queue.new] using h
  · have h := pop_all_delivers schedule vs
      { elements := vs, exited := false, max_length := max } value rfl rfl
    simpa [concurrent_queue.new] using h

/-- C4 at capacity 3 with the values 7, 8, 9. -/
theorem push_then_pop_is_fifo_witness :
    (∀ C, some 3 = some C → [7, 8, 9].length ≤ C) ∧
      push_all (concurrent_queue.new (some 3)) [7, 8, 9]
        = Outcome.done ([true, true, true],
            { elements := [7, 8, 9], exited := false, max_length := some 3 }) ∧
      pop_all [] 3 { elements := [7, 8, 9], exited := false, max_length := some 3 } 0
        = Outcome.done ([(true, 7), (true, 8), (true, 9)], concurrent_queue.new (some 3)) :=
  ⟨by intro C h; cases h; decide,
    push_then_pop_is_fifo (some 3) [7, 8, 9] 0 [] (by intro C h; cases h; decide)⟩

/-! ## C5 -/

/-- C5 (counterexample): on the fresh queue of capacity 0, which is running, `push_front(9)`
does not return true with a queue from which the next `pop` delivers 9: it executes
`pop_front()` on the empty list. -/
theorem push_front_capacity_zero_counterexample :
    (concurrent_queue.new (some 0) : concurrent_queue Nat).exited = false ∧
      ¬ ∃ q1 : concurrent_queue Nat,
          (concurrent_queue.new (some 0)).push_front 9 = Outcome.done (true, q1) ∧
            ∃ r, q1.pop 0 [] = Outcome.done r ∧ r.ret = true ∧ r.value = 9 := by
  refine ⟨rfl, ?_⟩
  rintro ⟨q1, h, _⟩
  have hu : (concurrent_queue.new (some 0)).push_front (9 : Nat) = Outcome.undefined := by decide
  rw [hu] at h
  cases h

/-- C5 (amended): on every running queue other than an empty queue of capacity 0,
`push_front(v)` returns true and the next `pop` returns true and delivers `v` without waiting;
what that `pop` leaves are the elements queued before, in their order, without the front one
when the queue had reached its capacity. -/
theorem push_front_then_pop {α : Type} (q : concurrent_queue α) (v value : α)
    (schedule : List (List (other_thread α)))
    (hrun : q.exited = false) (hq : ¬ (q.max_length = some 0 ∧ q.elements = [])) :
    q.push_front v
        = Outcome.done (true,
            { q with elements := v :: q.elements.drop (if q.at_capacity then 1 else 0) }) ∧
      ({ q with elements := v :: q.elements.drop (if q.at_capacity then 1 else 0) } :
          concurrent_queue α).pop value schedule
        = Outcome.done
            { ret := true, value := v,
              queue := { q with elements := q.elements.drop (if q.at_capacity then 1 else 0) },
              waits := 0 } := by
  rcases q with ⟨es, ex, ml⟩
  simp only at hrun hq
  subst hrun
  constructor
  · by_cases hcap : (concurrent_queue.mk es false ml).at_capacity = true
    · cases es with
      | nil =>
        exfalso
        apply hq
        unfold concurrent_queue.at_capacity at hcap
        cases ml with
        | none => simp at hcap
        | some m => simp at hcap; simp [hcap]
      | cons x xs => simp [concurrent_queue.push_front, hcap, list_pop_front]
    · simp [concurrent_queue.push_front, hcap]
  · cases schedule <;>
      simp [concurrent_queue.pop, pop_wait, need_stop, list_front, list_pop_front]

/-- C5 (amended) at the spec's scenario: capacity 2 holding 2, 3; `push_front(9)` evicts 2,
and the pops deliver 9 and then 3. -/
theorem push_front_then_pop_witness :
    (concurrent_queue.mk [2, 3] false (some 2)).exited = false ∧
      ¬ ((concurrent_queue.mk [2, 3] false (some 2)).max_length = some 0 ∧
          (concurrent_queue.mk [2, 3] false (some 2)).elements = []) ∧
      ((concurrent_queue.mk [2, 3] false (some 2)).push_front 9
          = Outcome.done (true, concurrent_queue.mk [9, 3] false (some 2)) ∧
        (concurrent_queue.mk [9, 3] false (some 2)).pop 0 []
          = Outcome.done
              { ret := true, value := 9, queue := concurrent_queue.mk [3] false (some 2),
                waits := 0 }) ∧
      (concurrent_queue.mk [3] false (some 2)).pop 9 []
        = Outcome.done
            { ret := true, value := 3, queue := concurrent_queue.mk [] false (some 2),
              waits := 0 } :=
  ⟨rfl, by decide,
    push_front_then_pop (concurrent_queue.mk [2, 3] false (some 2)) 9 0 [] rfl (by decide),
    by decide⟩

/-! ## C6 -/

/-- C6: on a stopped queue `push(v)` and `push_front(v)` both return false and leave the
queue (elements, stopped flag, capacity) as it was. -/
theorem push_and_push_front_stopped {α : Type} (q : concurrent_queue α) (v : α)
    (hstop : q.exited = true) :
    q.push v = Outcome.done (false, q) ∧ q.push_front v = Outcome.done (false, q) := by
  simp [concurrent_queue.push, concurrent_queue.push_front, hstop]

/-- C6 at a stopped queue that still holds elements and has capacity 2. -/
theorem push_and_push_front_stopped_witness :
    (concurrent_queue.mk [4, 5] true (some 2)).exited = true ∧
      (concurrent_queue.mk [4, 5] true (some 2)).push 7
        = Outcome.done (false, concurrent_queue.mk [4, 5] true (some 2)) ∧
      (concurrent_queue.mk [4, 5] true (some 2)).push_front 7
        = Outcome.done (false, concurrent_queue.mk [4, 5] true (some 2)) :=
  ⟨rfl, push_and_push_front_stopped (concurrent_queue.mk [4, 5] true (some 2)) 7 rfl⟩

/-! ## C7 -/

/-- C7: on a stopped queue `pop` returns false after zero calls of `wait_for`, whatever the
other threads would do during a wait; the caller's variable and the queue are unchanged. -/
theorem pop_stopped {α : Type} (q : concurrent_queue α) (value : α)
    (schedule : List (List (other_thread α))) (hstop : q.exited = true) :
    q.pop value schedule
      = Outcome.done { ret := false, value := value, queue := q, waits := 0 } := by
  cases schedule <;> simp [concurrent_queue.pop, pop_wait, need_stop, hstop]

/-- C7 at the spec's scenario: `stop()` on an empty unbounded queue, then `pop()`. -/
theorem pop_stopped_witness :
    (concurrent_queue.new none : concurrent_queue Nat).stop.exited = true ∧
      (concurrent_queue.new none : concurrent_queue Nat).stop.pop 0 [[other_thread.push 3]]
        = Outcome.done
            { ret := false, value := 0,
              queue := (concurrent_queue.new none : concurrent_queue Nat).stop, waits := 0 } :=
  ⟨rfl, pop_stopped (concurrent_queue.new none : concurrent_queue Nat).stop 0
    [[other_thread.push 3]] rfl⟩

/-! ## C8 -/

/-- C8: from every state `stop()` gives a state with the stopped flag set and no elements,
and a second `stop()` gives the same state as the first. -/
theorem stop_sets_flag_clears_and_is_idempotent {α : Type} (q : concurrent_queue α) :
    q.stop.exited = true ∧ q.stop.elements = [] ∧ q.stop.size = 0 ∧ q.stop.stop = q.stop := by
  simp [concurrent_queue.stop, concurrent_queue.size]

/-! ## C9 -/

/-- A sequence of calls run in two parts. -/
theorem run_append {α : Type} (cs ds : List (call α)) :
    ∀ q : concurrent_queue α, run q (cs ++ ds) = (run q cs).bind fun q1 => run q1 ds := by
  induction cs with
  | nil => intro q; simp [run]
  | cons c rest ih =>
    intro q
    simp only [List.cons_append, run]
    cases apply_call q c with
    | done q1 => simp [ih]
    | undefined => simp
    | blocked => simp

/-- A call that returns on a stopped and empty queue leaves it stopped and empty. -/
theorem apply_call_keeps_stopped {α : Type} (q q1 : concurrent_queue α) (c : call α)
    (hstop : q.exited = true) (hes : q.elements = [])
    (h : apply_call q c = Outcome.done q1) : q1.exited = true ∧ q1.elements = [] := by
  cases c with
  | push value =>
    simp only [apply_call, concurrent_queue.push, hstop, if_true, bind_done,
      Outcome.done.injEq] at h
    subst h; exact ⟨hstop, hes⟩
  | push_front value =>
    simp only [apply_call, concurrent_queue.push_front, hstop, if_true, bind_done,
      Outcome.done.injEq] at h
    subst h; exact ⟨hstop, hes⟩
  | pop value schedule =>
    have hp : q.pop value schedule
        = Outcome.done { ret := false, value := value, queue := q, waits := 0 } := by
      cases schedule <;> simp [concurrent_queue.pop, pop_wait, need_stop, hstop]
    simp only [apply_call, hp, bind_done, Outcome.done.injEq] at h
    subst h; exact ⟨hstop, hes⟩
  | pop_timed value time_to_wait start_time polls =>
    have hp : q.pop_timed value time_to_wait start_time polls = Outcome.undefined := by
      cases polls <;>
        simp [concurrent_queue.pop_timed, pop_timed_loop, hstop, hes, list_front]
    simp [apply_call, hp] at h
  | stop =>
    simp only [apply_call, Outcome.done.injEq] at h
    subst h; simp [concurrent_queue.stop]

/-- A sequence of calls that returns on a stopped and empty queue leaves it so. -/
theorem run_keeps_stopped {α : Type} (cs : List (call α)) :
    ∀ q q1 : concurrent_queue α, q.exited = true → q.elements = [] →
      run q cs = Outcome.done q1 → q1.exited = true ∧ q1.elements = [] := by
  induction cs with
  | nil =>
    intro q q1 hstop hes h
    simp only [run, Outcome.done.injEq] at h
    subst h; exact ⟨hstop, hes⟩
  | cons c rest ih =>
    intro q q1 hstop hes h
    simp only [run] at h
    obtain ⟨q2, h2, h3⟩ := (bind_eq_done _ _ _).1 h
    obtain ⟨hs2, he2⟩ := apply_call_keeps_stopped q q2 c hstop hes h2
    exact ih q2 q1 hs2 he2 h3

/-- A freshly constructed queue is running with size 0, and in every state reached from it
by a sequence of calls that have all returned and in which `stop()` has occurred, `running()`
is false and `size()` is 0. -/
theorem stopped_is_absorbing {α : Type} (max : Option Nat) (before after : List (call α))
    (q : concurrent_queue α)
    (h : run (concurrent_queue.new max) (before ++ call.stop :: after) = Outcome.done q) :
    (concurrent_queue.new max : concurrent_queue α).running = true ∧
      (concurrent_queue.new max : concurrent_queue α).size = 0 ∧
      q.running = false ∧ q.size = 0 := by
  refine ⟨rfl, rfl, ?_⟩
  rw [run_append] at h
  obtain ⟨q1, _, h1⟩ := (bind_eq_done _ _ _).1 h
  simp only [run, apply_call, bind_done] at h1
  obtain ⟨hs, he⟩ := run_keeps_stopped after q1.stop q (by simp [concurrent_queue.stop])
    (by simp [concurrent_queue.stop]) h1
  simp [concurrent_queue.running, concurrent_queue.size, hs, he]

/-- The stopped state at capacity 2: two pushes and a pop, then `stop()`, then a push,
a push_front and a pop. -/
theorem stopped_is_absorbing_witness :
    run (concurrent_queue.new (some 2))
        ([call.push 1, call.push 2, call.pop 0 []] ++
          call.stop :: [call.push 3, call.push_front 4, call.pop 0 []])
        = Outcome.done (concurrent_queue.mk [] true (some 2)) ∧
      ((concurrent_queue.new (some 2) : concurrent_queue Nat).running = true ∧
        (concurrent_queue.new (some 2) : concurrent_queue Nat).size = 0 ∧
        (concurrent_queue.mk ([] : List Nat) true (some 2)).running = false ∧
        (concurrent_queue.mk ([] : List Nat) true (some 2)).size = 0) :=
  ⟨by decide,
    stopped_is_absorbing (some 2) [call.push 1, call.push 2, call.pop 0 []]
      [call.push 3, call.push_front 4, call.pop 0 []]
      (concurrent_queue.mk [] true (some 2)) (by decide)⟩

/-- After `stop()`, every sequence of `push`, `push_front`, `pop` and `stop` calls returns and
leaves the queue stopped and empty, as `stop()` left it. -/
theorem run_after_stop {α : Type} (q : concurrent_queue α) (cs : List (call α))
    (hcs : ∀ c ∈ cs, c.is_pop_timed = false) :
    run q.stop cs = Outcome.done q.stop := by
  induction cs with
  | nil => rfl
  | cons c rest ih =>
    have hc := hcs c (List.mem_cons_self _ _)
    have hstep : apply_call q.stop c = Outcome.done q.stop := by
      cases c with
      | push value => simp [apply_call, concurrent_queue.push, concurrent_queue.stop]
      | push_front value =>
        simp [apply_call, concurrent_queue.push_front, concurrent_queue.stop]
      | pop value schedule =>
        cases schedule <;>
          simp [apply_call, concurrent_queue.pop, pop_wait, need_stop, concurrent_queue.stop]
      | pop_timed value time_to_wait start_time polls => simp [call.is_pop_timed] at hc
      | stop => simp [apply_call, concurrent_queue.stop]
    simp only [run, hstep, bind_done]
    exact ih (fun d hd => hcs d (List.mem_cons_of_mem _ hd))

/-- C9 (failing input): on a fresh unbounded queue, `stop()` followed by `pop_timed` does not
end in a state with `running()` false and `size()` 0: `pop_timed` skips its loop and executes
`front()` on the list that `stop()` has cleared. -/
theorem stop_then_pop_timed_undefined :
    run (concurrent_queue.new none : concurrent_queue Nat)
        [call.stop, call.pop_timed 0 1000 0 []]
      = Outcome.undefined := by
  decide

/-! ## C10 -/

/-- C10: on a running queue whose elements are `x :: rest`, `pop` makes zero calls of
`wait_for`, returns true, delivers `x`, and leaves exactly `rest`; the size goes down by one. -/
theorem pop_running_nonempty {α : Type} (q : concurrent_queue α) (x : α) (rest : List α)
    (value : α) (schedule : List (List (other_thread α)))
    (hrun : q.exited = false) (hes : q.elements = x :: rest) :
    q.pop value schedule
        = Outcome.done
            { ret := true, value := x, queue := { q with elements := rest }, waits := 0 } ∧
      ({ q with elements := rest } : concurrent_queue α).size + 1 = q.size := by
  constructor
  · cases schedule <;>
      simp [concurrent_queue.pop, pop_wait, need_stop, hrun, hes, list_front, list_pop_front]
  · simp [concurrent_queue.size, hes]

/-- C10 at a running queue of capacity 3 holding 5, 6, 7. -/
theorem pop_running_nonempty_witness :
    (concurrent_queue.mk [5, 6, 7] false (some 3)).exited = false ∧
      (concurrent_queue.mk [5, 6, 7] false (some 3)).elements = 5 :: [6, 7] ∧
      (concurrent_queue.mk [5, 6, 7] false (some 3)).pop 0 [[other_thread.stop]]
        = Outcome.done
            { ret := true, value := 5,
              queue := { concurrent_queue.mk [5, 6, 7] false (some 3) with elements := [6, 7] },
              waits := 0 } ∧
      ({ concurrent_queue.mk [5, 6, 7] false (some 3) with elements := [6, 7] } :
          concurrent_queue Nat).size + 1
        = (concurrent_queue.mk [5, 6, 7] false (some 3)).size :=
  ⟨rfl, rfl, pop_running_nonempty (concurrent_queue.mk [5, 6, 7] false (some 3)) 5 [6, 7] 0
    [[other_thread.stop]] rfl rfl⟩

/-! ## C11 -/

/-- C12 (failing input): on the running unbounded queue holding 5, `pop_timed` delivers 5 only
after one call of `condvar.wait_for`: the loop body waits before it looks at the elements. -/
theorem pop_timed_waits_with_element_available :
    (concurrent_queue.mk [5] false none).pop_timed 0 1000 0
        [{ interference := [], now := 100 }]
      = Outcome.done
          { ret := true, value := 5, queue := concurrent_queue.mk [] false none, waits := 1 } := by
  decide

/-- The loop of `pop_timed` never lowers the count of waits, and raises it when it is entered
on a running queue. -/
theorem pop_timed_loop_waits {α : Type} (time_to_wait start_time : Int) (polls : List (poll α)) :
    ∀ (q q1 : concurrent_queue α) (n m : Nat) (b : Bool),
      pop_timed_loop time_to_wait start_time polls q n = Outcome.done (b, q1, m) →
      n ≤ m ∧ (q.exited = false → n + 1 ≤ m) := by
  induction polls with
  | nil =>
    intro q q1 n m b h
    simp only [pop_timed_loop] at h
    split at h
    · rename_i hex
      simp only [Outcome.done.injEq, Prod.mk.injEq] at h
      exact ⟨by omega, by simp [hex]⟩
    · cases h
  | cons p rest ih =>
    intro q q1 n m b h
    simp only [pop_timed_loop] at h
    split at h
    · rename_i hex
      simp only [Outcome.done.injEq, Prod.mk.injEq] at h
      exact ⟨by omega, by simp [hex]⟩
    · obtain ⟨q2, _, h3⟩ := (bind_eq_done _ _ _).1 h
      split at h3
      · simp only [Outcome.done.injEq, Prod.mk.injEq] at h3
        exact ⟨by omega, fun _ => by omega⟩
      · split at h3
        · simp only [Outcome.done.injEq, Prod.mk.injEq] at h3
          exact ⟨by omega, fun _ => by omega⟩
        · split at h3
          · simp only [Outcome.done.injEq, Prod.mk.injEq] at h3
            exact ⟨by omega, fun _ => by omega⟩
          · have := (ih q2 q1 (n + 1) m b h3).1
            exact ⟨by omega, fun _ => by omega⟩

/-- Every `pop_timed` that returns on a running queue has made at least one call of
`condvar.wait_for`, whether or not an element was there. -/
theorem pop_timed_running_waits {α : Type} (q : concurrent_queue α) (value : α)
    (time_to_wait start_time : Int) (polls : List (poll α)) (r : pop_result α)
    (hrun : q.exited = false)
    (h : q.pop_timed value time_to_wait start_time polls = Outcome.done r) : 1 ≤ r.waits := by
  simp only [concurrent_queue.pop_timed] at h
  obtain ⟨s, hs, h2⟩ := (bind_eq_done _ _ _).1 h
  obtain ⟨b, q1, m⟩ := s
  have hm := (pop_timed_loop_waits time_to_wait start_time polls q q1 0 m b hs).2 hrun
  simp only at h2
  split at h2
  · obtain ⟨x, _, h3⟩ := (bind_eq_done _ _ _).1 h2
    obtain ⟨es, _, h4⟩ := (bind_eq_done _ _ _).1 h3
    simp only [Outcome.done.injEq] at h4
    subst h4; simpa using hm
  · simp only [Outcome.done.injEq] at h2
    subst h2; simpa using hm

/-! ## C13 -/

set_option maxRecDepth 100000

/-- With enough fuel the halving count is the binary logarithm. -/
theorem floor_log2_fuel_eq (fuel : Nat) : ∀ n : Nat, n ≤ fuel → floor_log2_fuel fuel n = Nat.log2 n := by
  induction fuel with
  | zero =>
    intro n hn
    have : n = 0 := by omega
    subst this
    rw [Nat.log2]
    simp [floor_log2_fuel]
  | succ f ih =>
    intro n hn
    rw [Nat.log2]
    simp only [floor_log2_fuel, ge_iff_le]
    split
    · rw [ih (n / 2) (by omega)]
    · rfl

/-- The index of the highest set bit is the binary logarithm. -/
theorem floor_log2_eq (n : Nat) : floor_log2 n = Nat.log2 n :=
  floor_log2_fuel_eq n n (Nat.le_refl n)

/-- The index of the highest set bit is monotone. -/
theorem floor_log2_mono {a b : Nat} (h : a ≤ b) : floor_log2 a ≤ floor_log2 b := by
  rw [floor_log2_eq, floor_log2_eq]
  by_cases ha : a = 0
  · subst ha
    have : Nat.log2 0 = 0 := by rw [Nat.log2]; simp
    omega
  · have hb : b ≠ 0 := by omega
    exact (Nat.le_log2 hb).2 (Nat.le_trans (Nat.log2_self_le ha) h)

/-- A positive number below `2^k` has its highest set bit below `k`. -/
theorem floor_log2_lt {n k : Nat} (hn : n ≠ 0) (h : n < 2 ^ k) : floor_log2 n < k := by
  rw [floor_log2_eq]
  exact (Nat.log2_lt hn).2 h

/-- Rounding to a whole number does not pass a whole number above the value. -/
theorem round_nearest_even_le {n d A : Nat} (hd : 0 < d) (h : n ≤ A * d) :
    round_nearest_even n d ≤ A := by
  have hq : n / d ≤ A := Nat.div_le_of_le_mul (by rw [Nat.mul_comm]; exact h)
  by_cases hlt : n / d < A
  · unfold round_nearest_even
    split
    · omega
    · split
      · omega
      · split <;> omega
  · have hqa : n / d = A := by omega
    have hmod : n % d = 0 := by
      have := Nat.div_add_mod n d
      rw [hqa] at this
      have h2 : d * A = A * d := Nat.mul_comm _ _
      omega
    unfold round_nearest_even
    simp [hmod, hd, hqa]

/-- Rounding to `p` bits does not pass a number of at most `p` bits above the value. -/
theorem round_binary_le {p n d m k : Nat} (hp : 1 ≤ p) (hd : 0 < d) (hm : m < 2 ^ p)
    (h : n ≤ m * 2 ^ k * d) : round_binary p n d ≤ m * 2 ^ k := by
  unfold round_binary
  rw [Nat.shiftLeft_eq, Nat.shiftLeft_eq]
  by_cases hN : m * 2 ^ k = 0
  · have hn : n = 0 := by rw [hN] at h; simpa using h
    subst hn
    have : round_nearest_even 0 (d * 2 ^ (floor_log2 (0 / d) - (p - 1))) = 0 := by
      apply Nat.le_zero.1
      apply round_nearest_even_le (Nat.mul_pos hd (Nat.two_pow_pos _))
      simp
    rw [this]; simp
  · have hq : n / d ≤ m * 2 ^ k := Nat.div_le_of_le_mul (by rw [Nat.mul_comm]; exact h)
    have hlog : floor_log2 (m * 2 ^ k) < p + k := by
      apply floor_log2_lt hN
      rw [Nat.pow_add]
      exact Nat.mul_lt_mul_of_pos_right hm (Nat.two_pow_pos _)
    have hu : floor_log2 (n / d) - (p - 1) ≤ k := by
      have := floor_log2_mono hq
      omega
    obtain ⟨j, hj⟩ := Nat.exists_eq_add_of_le hu
    have hpow : (2 : Nat) ^ k = 2 ^ j * 2 ^ (floor_log2 (n / d) - (p - 1)) := by
      rw [hj, Nat.pow_add, Nat.mul_comm]
    have hle : round_nearest_even n (d * 2 ^ (floor_log2 (n / d) - (p - 1))) ≤ m * 2 ^ j := by
      apply round_nearest_even_le (Nat.mul_pos hd (Nat.two_pow_pos _))
      calc n ≤ m * 2 ^ k * d := h
        _ = m * 2 ^ j * (d * 2 ^ (floor_log2 (n / d) - (p - 1))) := by rw [hpow]; ring
    calc round_nearest_even n (d * 2 ^ (floor_log2 (n / d) - (p - 1))) *
          2 ^ (floor_log2 (n / d) - (p - 1))
        ≤ m * 2 ^ j * 2 ^ (floor_log2 (n / d) - (p - 1)) := Nat.mul_le_mul_right _ hle
      _ = m * 2 ^ k := by rw [hpow]; ring

/-- The chain of the three roundings, with the ratio of the units of `double` and `float`
written `2^E`: an elapsed time of at most `m * 2^k` units of `float` gives at most that. -/
theorem round_chain_le {c m k : Nat} (E : Nat) (hm : m < 2 ^ 24)
    (h : c * 2 ^ 149 ≤ m * 2 ^ k * 10 ^ 9) :
    round_binary 24 (round_binary 53 (round_binary 53 (c * (2 ^ 149 * 2 ^ E)) 1) 1000000000)
      (2 ^ E) ≤ m * 2 ^ k := by
  have h1 : round_binary 53 (c * (2 ^ 149 * 2 ^ E)) 1 ≤ (m * 5 ^ 9) * 2 ^ (k + 9 + E) := by
    apply round_binary_le (by decide) (by decide)
    · calc m * 5 ^ 9 < 2 ^ 24 * 2 ^ 29 := by
            apply Nat.mul_lt_mul'' hm (by norm_num)
        _ = 2 ^ 53 := by norm_num
    · calc c * (2 ^ 149 * 2 ^ E) = c * 2 ^ 149 * 2 ^ E := by rw [Nat.mul_assoc]
        _ ≤ m * 2 ^ k * 10 ^ 9 * 2 ^ E := Nat.mul_le_mul_right _ h
        _ = m * 5 ^ 9 * 2 ^ (k + 9 + E) * 1 := by
          have e1 : (10 : Nat) ^ 9 = 5 ^ 9 * 2 ^ 9 := by norm_num
          rw [e1, Nat.pow_add, Nat.pow_add]; ring
  have h2 : round_binary 53 (round_binary 53 (c * (2 ^ 149 * 2 ^ E)) 1) 1000000000
      ≤ m * 2 ^ (k + E) := by
    apply round_binary_le (by decide) (by decide)
      (Nat.lt_trans hm (by norm_num))
    calc round_binary 53 (c * (2 ^ 149 * 2 ^ E)) 1 ≤ (m * 5 ^ 9) * 2 ^ (k + 9 + E) := h1
      _ = m * 2 ^ (k + E) * 1000000000 := by
        have e1 : (1000000000 : Nat) = 5 ^ 9 * 2 ^ 9 := by norm_num
        rw [e1, Nat.pow_add, Nat.pow_add, Nat.pow_add]; ring
  refine round_binary_le (by decide) (Nat.two_pow_pos E) hm ?_
  calc round_binary 53 (round_binary 53 (c * (2 ^ 149 * 2 ^ E)) 1) 1000000000
      ≤ m * 2 ^ (k + E) := h2
    _ = m * 2 ^ k * 2 ^ E := by rw [Nat.pow_add, Nat.mul_assoc]

/-- The chain of the three roundings written with the shifts of the definitions. -/
theorem round_chain_shift_le {c m k : Nat} (E : Nat) (hm : m < 2 ^ 24)
    (h : c * 2 ^ 149 ≤ m * 2 ^ k * 10 ^ 9) :
    round_binary 24 (round_binary 53 (round_binary 53 (c <<< (149 + E)) 1) 1000000000)
      (1 <<< E) ≤ m * 2 ^ k := by
  rw [Nat.one_shiftLeft, Nat.shiftLeft_eq, Nat.pow_add]
  exact round_chain_le E hm h

/-- An elapsed time of at most a `float` number of seconds is converted to a `dt` of at most
that `float`: the product of the `float` and `1e9` and the `float` itself are both `double`s. -/
theorem float_of_elapsed_le {c m k : Nat} (hm : m < 2 ^ 24)
    (h : c * 2 ^ 149 ≤ m * 2 ^ k * 10 ^ 9) :
    float_of_double (double_seconds c) ≤ m * 2 ^ k :=
  round_chain_shift_le 925 hm h

/-- The variable `dt` for a non-negative elapsed count. -/
theorem float_dt_of_nat (c : Nat) :
    float_dt (c : Int) = ((float_of_double (double_seconds c) : Nat) : Int) := by
  have h : ¬ ((c : Int) < 0) := by omega
  simp only [float_dt, if_neg h, Int.natAbs_ofNat]

/-- When `dt` is above the time to wait, a `float`, the exact elapsed time is above it too. -/
theorem elapsed_above_of_float_dt_above (time_to_wait elapsed : Int)
    (hfloat : is_binary32 time_to_wait) (hpos : 0 ≤ elapsed)
    (h : float_dt elapsed > time_to_wait) :
    time_to_wait * 10 ^ 9 < elapsed * 2 ^ 149 := by
  by_cases ht : time_to_wait < 0
  · have h1 : time_to_wait * 10 ^ 9 < 0 := Int.mul_neg_of_neg_of_pos ht (by norm_num)
    have h2 : 0 ≤ elapsed * 2 ^ 149 := Int.mul_nonneg hpos (by norm_num)
    omega
  · obtain ⟨c, hc⟩ := Int.eq_ofNat_of_zero_le hpos
    obtain ⟨t, ht2⟩ := Int.eq_ofNat_of_zero_le (show 0 ≤ time_to_wait by omega)
    obtain ⟨m, k, hm, hmk⟩ := hfloat
    subst hc ht2
    rw [Int.natAbs_ofNat] at hmk
    rw [float_dt_of_nat] at h
    by_contra hcon
    have hle : c * 2 ^ 149 ≤ m * 2 ^ k * 10 ^ 9 := by
      rw [← hmk]
      have : (c : Int) * 2 ^ 149 ≤ (t : Int) * 10 ^ 9 := by omega
      exact_mod_cast this
    have := float_of_elapsed_le hm hle
    rw [← hmk] at this
    have h3 : ((float_of_double (double_seconds c) : Nat) : Int) ≤ (t : Int) := by
      exact_mod_cast this
    omega

/-- On a running empty queue left alone, the loop of `pop_timed` goes through the polls whose
`dt` is not above the time to wait and leaves by `return false` at the first one whose `dt` is
above it. -/
theorem pop_timed_loop_times_out {α : Type} (time_to_wait start_time : Int) (p : poll α)
    (later : List (poll α)) (q : concurrent_queue α)
    (hrun : q.exited = false) (hes : q.elements = [])
    (hp : p.interference = []) (hlate : float_dt (p.now - start_time) > time_to_wait)
    (early : List (poll α)) :
    ∀ n : Nat, (∀ e ∈ early, e.interference = []) →
      (∀ e ∈ early, float_dt (e.now - start_time) ≤ time_to_wait) →
      pop_timed_loop time_to_wait start_time (early ++ p :: later) q n
        = Outcome.done (false, q, n + early.length + 1) := by
  induction early with
  | nil =>
    intro n _ _
    simp [pop_timed_loop, wait_for, hrun, hes, hp, hlate]
  | cons e rest ih =>
    intro n hquiet hearly
    have he : e.interference = [] := hquiet e (List.mem_cons_self _ _)
    have ht : ¬ (float_dt (e.now - start_time) > time_to_wait) := by
      have := hearly e (List.mem_cons_self _ _)
      omega
    have h1 := ih (n + 1) (fun a ha => hquiet a (List.mem_cons_of_mem _ ha))
      (fun a ha => hearly a (List.mem_cons_of_mem _ ha))
    have hstep : pop_timed_loop time_to_wait start_time (e :: (rest ++ p :: later)) q n
        = pop_timed_loop time_to_wait start_time (rest ++ p :: later) q (n + 1) := by
      rw [pop_timed_loop]
      simp only [hrun, Bool.false_eq_true, if_false, he, wait_for, bind_done, hes,
        List.isEmpty_nil, Bool.not_true, if_neg ht]
    rw [List.cons_append, hstep, h1, List.length_cons]
    congr 3
    omega

/-- C13 (counterexample): with a time to wait of `0.25f` (that is `2^147` units of `2^-149`
second) on the fresh unbounded queue, the first poll comes 250000001 ns after the start, which
is more than 0.25 s, yet the call does not return there: `dt` is that time rounded to `float`,
which is `0.25f` and not above the time to wait. The call returns at the second poll. -/
theorem pop_timed_times_out_counterexample :
    (2 : Int) ^ 147 * 10 ^ 9 < (250000001 - 0) * 2 ^ 149 ∧
      (concurrent_queue.new none : concurrent_queue Nat).pop_timed 0 (2 ^ 147) 0
          [{ interference := [], now := 250000001 }, { interference := [], now := 350000000 }]
        = Outcome.done
            { ret := false, value := 0, queue := concurrent_queue.new none, waits := 2 } := by
  decide

/-- C13 (amended): on a running queue that stays empty and is not stopped, with a monotone
clock and a finite `float` time to wait, `pop_timed` returns false at the first poll whose
elapsed time, rounded to `float` as the code computes `dt`, is above the time to wait, and at
no earlier poll: it has made one wait per poll up to and including that one. The exact elapsed
time at the return is above the time to wait, and the queue and the caller's variable are
unchanged. -/
theorem pop_timed_times_out {α : Type} (q : concurrent_queue α) (value : α)
    (time_to_wait start_time : Int) (early : List (poll α)) (p : poll α)
    (later : List (poll α))
    (hrun : q.exited = false) (hes : q.elements = [])
    (hquiet : ∀ e ∈ early, e.interference = []) (hp : p.interference = [])
    (hearly : ∀ e ∈ early, float_dt (e.now - start_time) ≤ time_to_wait)
    (hlate : float_dt (p.now - start_time) > time_to_wait)
    (hfloat : is_binary32 time_to_wait) (hclock : start_time ≤ p.now) :
    q.pop_timed value time_to_wait start_time (early ++ p :: later)
        = Outcome.done
            { ret := false, value := value, queue := q, waits := early.length + 1 } ∧
      time_to_wait * 10 ^ 9 < (p.now - start_time) * 2 ^ 149 := by
  refine ⟨?_, elapsed_above_of_float_dt_above time_to_wait (p.now - start_time) hfloat
    (by omega) hlate⟩
  have h := pop_timed_loop_times_out time_to_wait start_time p later q hrun hes hp hlate early 0
    hquiet hearly
  simp [concurrent_queue.pop_timed, h]

/-- C13 (amended) at the spec's scenario: a time to wait of `0.2f`, which is 13421773 times
`2^-26` second, and polls 0.1 s, 0.2 s and 0.3 s after the start; at 0.2 s `dt` equals the
time to wait, and the call returns false at the third poll. -/
theorem pop_timed_times_out_witness :
    (concurrent_queue.new none : concurrent_queue Nat).pop_timed 0 (13421773 * 2 ^ 123) 0
        ([{ interference := [], now := 100000000 }, { interference := [], now := 200000000 }] ++
          { interference := [], now := 300000000 } :: [{ interference := [], now := 400000000 }])
        = Outcome.done
            { ret := false, value := 0, queue := concurrent_queue.new none, waits := 2 + 1 } ∧
      (13421773 * 2 ^ 123 : Int) * 10 ^ 9 < (300000000 - 0) * 2 ^ 149 :=
  pop_timed_times_out (concurrent_queue.new none : concurrent_queue Nat) 0
    (13421773 * 2 ^ 123) 0
    [{ interference := [], now := 100000000 }, { interference := [], now := 200000000 }]
    { interference := [], now := 300000000 } [{ interference := [], now := 400000000 }]
    rfl rfl (by decide) rfl (by decide) (by decide) ⟨13421773, 123, by decide, by decide⟩
    (by decide)

/-! ## C16 -/

/-- C16: on a running queue of capacity `C` at least 1 that holds exactly `C` elements
`a :: rest`, `push_front(v)` evicts `a` and puts `v` at the front, and the following `push(w)`
evicts `v`, the element now at the front, and leaves exactly `rest` followed by `w`; both
calls return true, and `v` has been discarded without a `pop` in between. -/
theorem push_front_then_push_evicts_expedited {α : Type} (C : Nat) (a : α) (rest : List α)
    (v w : α) (hlen : (a :: rest).length = C) :
    (concurrent_queue.mk (a :: rest) false (some C)).push_front v
        = Outcome.done (true, concurrent_queue.mk (v :: rest) false (some C)) ∧
      (concurrent_queue.mk (v :: rest) false (some C)).push w
        = Outcome.done (true, concurrent_queue.mk (rest ++ [w]) false (some C)) := by
  simp only [List.length_cons] at hlen
  constructor
  · simp [concurrent_queue.push_front, concurrent_queue.at_capacity, hlen, list_pop_front]
  · simp [concurrent_queue.push, concurrent_queue.at_capacity, hlen, list_pop_front]

/-- C16 at capacity 3 holding 1, 2, 3: `push_front(9)` then `push(4)` leave 2, 3, 4. -/
theorem push_front_then_push_evicts_expedited_witness :
    (1 :: [2, 3]).length = 3 ∧
      (concurrent_queue.mk (1 :: [2, 3]) false (some 3)).push_front 9
        = Outcome.done (true, concurrent_queue.mk (9 :: [2, 3]) false (some 3)) ∧
      (concurrent_queue.mk (9 :: [2, 3]) false (some 3)).push 4
        = Outcome.done (true, concurrent_queue.mk ([2, 3] ++ [4]) false (some 3)) :=
  ⟨rfl, push_front_then_push_evicts_expedited 3 1 [2, 3] 9 4 rfl⟩

/-! ## C17 -/

/-- A `push` that returns leaves the stopped flag and the capacity as they were. -/
theorem push_frame {α : Type} (q q1 : concurrent_queue α) (v : α) (r : Bool)
    (h : q.push v = Outcome.done (r, q1)) :
    q1.exited = q.exited ∧ q1.max_length = q.max_length := by
  unfold concurrent_queue.push at h
  split at h
  · simp only [Outcome.done.injEq, Prod.mk.injEq] at h
    rw [← h.2]; exact ⟨rfl, rfl⟩
  · split at h
    · obtain ⟨es, _, h2⟩ := (bind_eq_done _ _ _).1 h
      simp only [Outcome.done.injEq, Prod.mk.injEq] at h2
      rw [← h2.2]; exact ⟨rfl, rfl⟩
    · simp only [Outcome.done.injEq, Prod.mk.injEq] at h
      rw [← h.2]; exact ⟨rfl, rfl⟩

/-- A `push_front` that returns leaves the stopped flag and the capacity as they were. -/
theorem push_front_frame {α : Type} (q q1 : concurrent_queue α) (v : α) (r : Bool)
    (h : q.push_front v = Outcome.done (r, q1)) :
    q1.exited = q.exited ∧ q1.max_length = q.max_length := by
  unfold concurrent_queue.push_front at h
  split at h
  · simp only [Outcome.done.injEq, Prod.mk.injEq] at h
    rw [← h.2]; exact ⟨rfl, rfl⟩
  · split at h
    · obtain ⟨es, _, h2⟩ := (bind_eq_done _ _ _).1 h
      simp only [Outcome.done.injEq, Prod.mk.injEq] at h2
      rw [← h2.2]; exact ⟨rfl, rfl⟩
    · simp only [Outcome.done.injEq, Prod.mk.injEq] at h
      rw [← h.2]; exact ⟨rfl, rfl⟩

/-- No action of another thread changes the capacity, and only `stop` changes the flag. -/
theorem interfere_frame {α : Type} (q q1 : concurrent_queue α) (a : other_thread α)
    (h : interfere q a = Outcome.done q1) :
    q1.max_length = q.max_length ∧ (a.is_stop = false → q1.exited = q.exited) := by
  cases a with
  | push value =>
    simp only [interfere] at h
    obtain ⟨r, hr, h2⟩ := (bind_eq_done _ _ _).1 h
    simp only [Outcome.done.injEq] at h2
    subst h2
    have := push_frame q r.2 value r.1 hr
    exact ⟨this.2, fun _ => this.1⟩
  | push_front value =>
    simp only [interfere] at h
    obtain ⟨r, hr, h2⟩ := (bind_eq_done _ _ _).1 h
    simp only [Outcome.done.injEq] at h2
    subst h2
    have := push_front_frame q r.2 value r.1 hr
    exact ⟨this.2, fun _ => this.1⟩
  | take =>
    simp only [interfere] at h
    split at h
    · simp only [Outcome.done.injEq] at h; subst h; exact ⟨rfl, fun _ => rfl⟩
    · split at h
      · simp only [Outcome.done.injEq] at h; subst h; exact ⟨rfl, fun _ => rfl⟩
      · simp only [Outcome.done.injEq] at h; subst h; exact ⟨rfl, fun _ => rfl⟩
  | stop =>
    simp only [interfere, Outcome.done.injEq] at h
    subst h
    exact ⟨rfl, fun hs => by simp [other_thread.is_stop] at hs⟩

/-- A wait never changes the capacity, and changes the flag only when another thread stops
the queue. -/
theorem wait_for_frame {α : Type} (w : List (other_thread α)) :
    ∀ q q1 : concurrent_queue α, wait_for q w = Outcome.done q1 →
      q1.max_length = q.max_length ∧ (wait_without_stop w = true → q1.exited = q.exited) := by
  induction w with
  | nil =>
    intro q q1 h
    simp only [wait_for, Outcome.done.injEq] at h
    subst h; exact ⟨rfl, fun _ => rfl⟩
  | cons a rest ih =>
    intro q q1 h
    simp only [wait_for] at h
    obtain ⟨q2, h2, h3⟩ := (bind_eq_done _ _ _).1 h
    have f1 := interfere_frame q q2 a h2
    have f2 := ih q2 q1 h3
    refine ⟨f2.1.trans f1.1, fun hw => ?_⟩
    simp only [wait_without_stop, List.all_cons, Bool.and_eq_true, Bool.not_eq_true'] at hw
    exact (f2.2 (by simpa [wait_without_stop] using hw.2)).trans (f1.2 hw.1)

/-- The wait loop of `pop` never changes the capacity, and changes the flag only when another
thread stops the queue. -/
theorem pop_wait_frame {α : Type} (schedule : List (List (other_thread α))) :
    ∀ (q q1 : concurrent_queue α) (n m : Nat),
      pop_wait schedule q n = Outcome.done (q1, m) →
      q1.max_length = q.max_length ∧
        (schedule.all wait_without_stop = true → q1.exited = q.exited) := by
  induction schedule with
  | nil =>
    intro q q1 n m h
    simp only [pop_wait] at h
    split at h
    · simp only [Outcome.done.injEq, Prod.mk.injEq] at h
      rw [← h.1]; exact ⟨rfl, fun _ => rfl⟩
    · cases h
  | cons w rest ih =>
    intro q q1 n m h
    simp only [pop_wait] at h
    split at h
    · simp only [Outcome.done.injEq, Prod.mk.injEq] at h
      rw [← h.1]; exact ⟨rfl, fun _ => rfl⟩
    · obtain ⟨q2, h2, h3⟩ := (bind_eq_done _ _ _).1 h
      have f1 := wait_for_frame w q q2 h2
      have f2 := ih q2 q1 (n + 1) m h3
      refine ⟨f2.1.trans f1.1, fun hw => ?_⟩
      simp only [List.all_cons, Bool.and_eq_true] at hw
      exact (f2.2 hw.2).trans (f1.2 hw.1)

/-- A `pop` that returns leaves the capacity as it was, and the stopped flag too unless
another thread stopped the queue during a wait. -/
theorem pop_frame {α : Type} (q : concurrent_queue α) (value : α)
    (schedule : List (List (other_thread α))) (r : pop_result α)
    (h : q.pop value schedule = Outcome.done r) :
    r.queue.max_length = q.max_length ∧
      (schedule.all wait_without_stop = true → r.queue.exited = q.exited) := by
  simp only [concurrent_queue.pop] at h
  obtain ⟨s, hs, h2⟩ := (bind_eq_done _ _ _).1 h
  have f := pop_wait_frame schedule q s.1 0 s.2 hs
  split at h2
  · simp only [Outcome.done.injEq] at h2; subst h2; exact f
  · obtain ⟨x, _, h3⟩ := (bind_eq_done _ _ _).1 h2
    obtain ⟨es, _, h4⟩ := (bind_eq_done _ _ _).1 h3
    simp only [Outcome.done.injEq] at h4
    subst h4; exact f

/-- The loop of `pop_timed` never changes the capacity, and changes the flag only when another
thread stops the queue. -/
theorem pop_timed_loop_frame {α : Type} (time_to_wait start_time : Int)
    (polls : List (poll α)) :
    ∀ (q q1 : concurrent_queue α) (n m : Nat) (b : Bool),
      pop_timed_loop time_to_wait start_time polls q n = Outcome.done (b, q1, m) →
      q1.max_length = q.max_length ∧
        ((polls.all fun p => wait_without_stop p.interference) = true →
          q1.exited = q.exited) := by
  induction polls with
  | nil =>
    intro q q1 n m b h
    simp only [pop_timed_loop] at h
    split at h
    · simp only [Outcome.done.injEq, Prod.mk.injEq] at h
      rw [← h.2.1]; exact ⟨rfl, fun _ => rfl⟩
    · cases h
  | cons p rest ih =>
    intro q q1 n m b h
    simp only [pop_timed_loop] at h
    split at h
    · simp only [Outcome.done.injEq, Prod.mk.injEq] at h
      rw [← h.2.1]; exact ⟨rfl, fun _ => rfl⟩
    · obtain ⟨q2, h2, h3⟩ := (bind_eq_done _ _ _).1 h
      have f1 := wait_for_frame p.interference q q2 h2
      have key : ∀ hq : q1 = q2, q1.max_length = q.max_length ∧
          ((List.all (p :: rest) fun p => wait_without_stop p.interference) = true →
            q1.exited = q.exited) := by
        intro hq
        subst hq
        refine ⟨f1.1, fun hw => ?_⟩
        simp only [List.all_cons, Bool.and_eq_true] at hw
        exact f1.2 hw.1
      split at h3
      · simp only [Outcome.done.injEq, Prod.mk.injEq] at h3
        exact key h3.2.1.symm
      · split at h3
        · simp only [Outcome.done.injEq, Prod.mk.injEq] at h3
          exact key h3.2.1.symm
        · split at h3
          · simp only [Outcome.done.injEq, Prod.mk.injEq] at h3
            exact key h3.2.1.symm
          · have f2 := ih q2 q1 (n + 1) m b h3
            refine ⟨f2.1.trans f1.1, fun hw => ?_⟩
            simp only [List.all_cons, Bool.and_eq_true] at hw
            exact (f2.2 hw.2).trans (f1.2 hw.1)

/-- A `pop_timed` that returns leaves the capacity as it was, and the stopped flag too unless
another thread stopped the queue during a wait. -/
theorem pop_timed_frame {α : Type} (q : concurrent_queue α) (value : α)
    (time_to_wait start_time : Int) (polls : List (poll α)) (r : pop_result α)
    (h : q.pop_timed value time_to_wait start_time polls = Outcome.done r) :
    r.queue.max_length = q.max_length ∧
      ((polls.all fun p => wait_without_stop p.interference) = true →
        r.queue.exited = q.exited) := by
  simp only [concurrent_queue.pop_timed] at h
  obtain ⟨s, hs, h2⟩ := (bind_eq_done _ _ _).1 h
  obtain ⟨b, q1, m⟩ := s
  have f := pop_timed_loop_frame time_to_wait start_time polls q q1 0 m b hs
  simp only at h2
  split at h2
  · obtain ⟨x, _, h3⟩ := (bind_eq_done _ _ _).1 h2
    obtain ⟨es, _, h4⟩ := (bind_eq_done _ _ _).1 h3
    simp only [Outcome.done.injEq] at h4
    subst h4; exact f
  · simp only [Outcome.done.injEq] at h2
    subst h2; exact f

/-- Every call that returns leaves the capacity as it was, and the stopped flag too when the
call is not `stop` and no other thread stops the queue during its waits. -/
theorem apply_call_frame {α : Type} (q q1 : concurrent_queue α) (c : call α)
    (h : apply_call q c = Outcome.done q1) :
    q1.max_length = q.max_length ∧ (c.without_stop = true → q1.exited = q.exited) := by
  cases c with
  | push value =>
    simp only [apply_call] at h
    obtain ⟨r, hr, h2⟩ := (bind_eq_done _ _ _).1 h
    simp only [Outcome.done.injEq] at h2
    subst h2
    have := push_frame q r.2 value r.1 hr
    exact ⟨this.2, fun _ => this.1⟩
  | push_front value =>
    simp only [apply_call] at h
    obtain ⟨r, hr, h2⟩ := (bind_eq_done _ _ _).1 h
    simp only [Outcome.done.injEq] at h2
    subst h2
    have := push_front_frame q r.2 value r.1 hr
    exact ⟨this.2, fun _ => this.1⟩
  | pop value schedule =>
    simp only [apply_call] at h
    obtain ⟨r, hr, h2⟩ := (bind_eq_done _ _ _).1 h
    simp only [Outcome.done.injEq] at h2
    subst h2
    exact pop_frame q value schedule r hr
  | pop_timed value time_to_wait start_time polls =>
    simp only [apply_call] at h
    obtain ⟨r, hr, h2⟩ := (bind_eq_done _ _ _).1 h
    simp only [Outcome.done.injEq] at h2
    subst h2
    exact pop_timed_frame q value time_to_wait start_time polls r hr
  | stop =>
    simp only [apply_call, Outcome.done.injEq] at h
    subst h
    exact ⟨rfl, fun hs => by simp [call.without_stop] at hs⟩

/-- After every sequence of calls that have all returned, the capacity is the one given to
the constructor. -/
theorem run_keeps_max_length {α : Type} (cs : List (call α)) :
    ∀ q q1 : concurrent_queue α, run q cs = Outcome.done q1 →
      q1.max_length = q.max_length := by
  induction cs with
  | nil =>
    intro q q1 h
    simp only [run, Outcome.done.injEq] at h
    subst h; rfl
  | cons c rest ih =>
    intro q q1 h
    simp only [run] at h
    obtain ⟨q2, h2, h3⟩ := (bind_eq_done _ _ _).1 h
    exact (ih q2 q1 h3).trans (apply_call_frame q q2 c h2).1

/-- C17: whatever call returns, `stop` included, the capacity bound is the one fixed at
construction; a `push`, `push_front`, `pop` or `pop_timed` during which no other thread calls
`stop` leaves the stopped flag as it was, so a queue that was running before it is running
after it. -/
theorem calls_keep_flag_and_capacity {α : Type} (q q1 : concurrent_queue α) (c : call α)
    (h : apply_call q c = Outcome.done q1) :
    q1.max_length = q.max_length ∧
      (c.without_stop = true → q1.exited = q.exited) ∧
      (c.without_stop = true → q.running = true → q1.running = true) := by
  have f := apply_call_frame q q1 c h
  refine ⟨f.1, f.2, fun hc hr => ?_⟩
  have := f.2 hc
  simpa [concurrent_queue.running, this] using hr

/-- C17 at a running queue of capacity 2 holding 1, 2: a `pop`, a `push` and a `stop`. -/
theorem calls_keep_flag_and_capacity_witness :
    apply_call (concurrent_queue.mk [1, 2] false (some 2)) (call.pop 0 [])
        = Outcome.done (concurrent_queue.mk [2] false (some 2)) ∧
      ((concurrent_queue.mk [2] false (some 2)).max_length
          = (concurrent_queue.mk [1, 2] false (some 2)).max_length ∧
        ((call.pop 0 [] : call Nat).without_stop = true →
          (concurrent_queue.mk [2] false (some 2)).exited
            = (concurrent_queue.mk [1, 2] false (some 2)).exited) ∧
        ((call.pop 0 [] : call Nat).without_stop = true →
          (concurrent_queue.mk [1, 2] false (some 2)).running = true →
          (concurrent_queue.mk [2] false (some 2)).running = true)) ∧
      (call.pop 0 [] : call Nat).without_stop = true ∧
      (concurrent_queue.mk [1, 2] false (some 2)).running = true :=
  ⟨by decide,
    calls_keep_flag_and_capacity (concurrent_queue.mk [1, 2] false (some 2))
      (concurrent_queue.mk [2] false (some 2)) (call.pop 0 []) (by decide),
    by decide, by decide⟩

/-! ## C15 -/

/-- On a queue that is unbounded or has a capacity of at least 1, `push` returns: when it
evicts, the list holds at least as many elements as the capacity, so it is not empty. -/
theorem push_defined {α : Type} (q : concurrent_queue α) (v : α) (hq : capacity_positive q) :
    ∃ r q1, q.push v = Outcome.done (r, q1) := by
  rcases q with ⟨es, ex, ml⟩
  cases ex with
  | true => simp only [concurrent_queue.push, if_true]; exact ⟨_, _, rfl⟩
  | false =>
    by_cases hcap : (concurrent_queue.mk es false ml).at_capacity = true
    · cases es with
      | nil =>
        exfalso
        unfold concurrent_queue.at_capacity at hcap
        cases ml with
        | none => simp at hcap
        | some m =>
          have := hq m rfl
          simp at hcap
          omega
      | cons x xs =>
        simp only [concurrent_queue.push, hcap, if_true, list_pop_front, bind_done,
          Bool.false_eq_true, if_false]
        exact ⟨_, _, rfl⟩
    · simp only [concurrent_queue.push, hcap, Bool.false_eq_true, if_false]
      exact ⟨_, _, rfl⟩

/-- On a queue that is unbounded or has a capacity of at least 1, `push_front` returns: when
it evicts, the list is not empty. -/
theorem push_front_defined {α : Type} (q : concurrent_queue α) (v : α)
    (hq : capacity_positive q) : ∃ r q1, q.push_front v = Outcome.done (r, q1) := by
  rcases q with ⟨es, ex, ml⟩
  cases ex with
  | true => simp only [concurrent_queue.push_front, if_true]; exact ⟨_, _, rfl⟩
  | false =>
    by_cases hcap : (concurrent_queue.mk es false ml).at_capacity = true
    · cases es with
      | nil =>
        exfalso
        unfold concurrent_queue.at_capacity at hcap
        cases ml with
        | none => simp at hcap
        | some m =>
          have := hq m rfl
          simp at hcap
          omega
      | cons x xs =>
        simp only [concurrent_queue.push_front, hcap, if_true, list_pop_front, bind_done,
          Bool.false_eq_true, if_false]
        exact ⟨_, _, rfl⟩
    · simp only [concurrent_queue.push_front, hcap, Bool.false_eq_true, if_false]
      exact ⟨_, _, rfl⟩

/-- A capacity of at least 1 stays one: no returning step changes `max_length`. -/
theorem capacity_positive_of_eq {α : Type} (q q1 : concurrent_queue α)
    (hq : capacity_positive q) (h : q1.max_length = q.max_length) : capacity_positive q1 := by
  intro C hC
  exact hq C (h ▸ hC)

/-- On a queue that is unbounded or has a capacity of at least 1, every action of another
thread is defined. -/
theorem interfere_defined {α : Type} (q : concurrent_queue α) (a : other_thread α)
    (hq : capacity_positive q) : ∃ q1, interfere q a = Outcome.done q1 := by
  cases a with
  | push value =>
    obtain ⟨r, q1, h⟩ := push_defined q value hq
    exact ⟨q1, by simp [interfere, h]⟩
  | push_front value =>
    obtain ⟨r, q1, h⟩ := push_front_defined q value hq
    exact ⟨q1, by simp [interfere, h]⟩
  | take =>
    simp only [interfere]
    split
    · exact ⟨_, rfl⟩
    · split
      · exact ⟨_, rfl⟩
      · exact ⟨_, rfl⟩
  | stop => exact ⟨_, rfl⟩

/-- On a queue that is unbounded or has a capacity of at least 1, every wait is defined. -/
theorem wait_for_defined {α : Type} (w : List (other_thread α)) :
    ∀ q : concurrent_queue α, capacity_positive q → ∃ q1, wait_for q w = Outcome.done q1 := by
  induction w with
  | nil => intro q _; exact ⟨q, rfl⟩
  | cons a rest ih =>
    intro q hq
    obtain ⟨q2, h2⟩ := interfere_defined q a hq
    obtain ⟨q1, h1⟩ :=
      ih q2 (capacity_positive_of_eq q q2 hq (interfere_frame q q2 a h2).1)
    exact ⟨q1, by simp [wait_for, h2, h1]⟩

/-- The wait loop of `pop` ends only in a state that is stopped or not empty, and on a queue
that is unbounded or has a capacity of at least 1 it never meets undefined behaviour. -/
theorem pop_wait_safe {α : Type} (schedule : List (List (other_thread α))) :
    ∀ (q : concurrent_queue α) (n : Nat), capacity_positive q →
      pop_wait schedule q n ≠ Outcome.undefined ∧
        ∀ q1 m, pop_wait schedule q n = Outcome.done (q1, m) → need_stop q1 = true := by
  induction schedule with
  | nil =>
    intro q n _
    simp only [pop_wait]
    split
    · rename_i hn
      refine ⟨by simp, fun q1 m h => ?_⟩
      simp only [Outcome.done.injEq, Prod.mk.injEq] at h
      rw [← h.1]; exact hn
    · exact ⟨by simp, fun q1 m h => by cases h⟩
  | cons w rest ih =>
    intro q n hq
    simp only [pop_wait]
    split
    · rename_i hn
      refine ⟨by simp, fun q1 m h => ?_⟩
      simp only [Outcome.done.injEq, Prod.mk.injEq] at h
      rw [← h.1]; exact hn
    · obtain ⟨q2, h2⟩ := wait_for_defined w q hq
      have hq2 := capacity_positive_of_eq q q2 hq (wait_for_frame w q q2 h2).1
      simpa [h2] using ih q2 (n + 1) hq2

/-- On a queue that is unbounded or has a capacity of at least 1, `pop` never executes
`front()` or `pop_front()` on an empty list. -/
theorem pop_safe {α : Type} (q : concurrent_queue α) (value : α)
    (schedule : List (List (other_thread α))) (hq : capacity_positive q) :
    q.pop value schedule ≠ Outcome.undefined := by
  obtain ⟨hne, hstop⟩ := pop_wait_safe schedule q 0 hq
  simp only [concurrent_queue.pop]
  cases hw : pop_wait schedule q 0 with
  | undefined => exact absurd hw hne
  | blocked => simp
  | done s =>
    obtain ⟨q1, m⟩ := s
    have hn := hstop q1 m hw
    simp only [bind_done]
    split
    · simp
    · rename_i hex
      cases hes : q1.elements with
      | nil => simp [need_stop, hes] at hn; exact absurd hn hex
      | cons x rest => simp [list_front, list_pop_front]

/-- On a queue that is unbounded or has a capacity of at least 1, no call other than
`pop_timed` meets undefined behaviour. -/
theorem apply_call_safe {α : Type} (q : concurrent_queue α) (c : call α)
    (hq : capacity_positive q) (hc : c.is_pop_timed = false) :
    apply_call q c ≠ Outcome.undefined := by
  cases c with
  | push value =>
    obtain ⟨r, q1, h⟩ := push_defined q value hq
    simp [apply_call, h]
  | push_front value =>
    obtain ⟨r, q1, h⟩ := push_front_defined q value hq
    simp [apply_call, h]
  | pop value schedule =>
    have := pop_safe q value schedule hq
    simp only [apply_call]
    cases hp : q.pop value schedule with
    | undefined => exact absurd hp this
    | blocked => simp
    | done r => simp
  | pop_timed value time_to_wait start_time polls => simp [call.is_pop_timed] at hc
  | stop => simp [apply_call]

/-- On a queue that is unbounded or has a capacity of at least 1, no sequence of calls other
than `pop_timed` meets undefined behaviour. -/
theorem run_safe {α : Type} (cs : List (call α)) :
    ∀ q : concurrent_queue α, capacity_positive q → (∀ c ∈ cs, c.is_pop_timed = false) →
      run q cs ≠ Outcome.undefined := by
  induction cs with
  | nil => intro q _ _; simp [run]
  | cons c rest ih =>
    intro q hq hcs
    have h1 := apply_call_safe q c hq (hcs c (List.mem_cons_self _ _))
    simp only [run]
    cases ha : apply_call q c with
    | undefined => exact absurd ha h1
    | blocked => simp
    | done q1 =>
      simp only [bind_done]
      exact ih q1 (capacity_positive_of_eq q q1 hq (apply_call_frame q q1 c ha).1)
        (fun d hd => hcs d (List.mem_cons_of_mem _ hd))

/-- C15: for a queue constructed unbounded or with a capacity of at least 1, no sequence of
`push`, `push_front`, `pop` and `stop` calls, whatever other threads do during the waits of
`pop`, ever executes `pop_front()` or `front()` on an empty list: the eviction step and the
front read and removal of `pop` always find an element. -/
theorem eviction_and_pop_find_an_element {α : Type} (max : Option Nat) (cs : List (call α))
    (hmax : ∀ C, max = some C → 1 ≤ C) (hcs : ∀ c ∈ cs, c.is_pop_timed = false) :
    run (concurrent_queue.new max) cs ≠ Outcome.undefined :=
  run_safe cs (concurrent_queue.new max) (fun C hC => hmax C hC) hcs

/-- C15 at capacity 1: two pushes, a push_front, two pops (the second one woken by another
thread's push) and a stop all find an element where they need one. -/
theorem eviction_and_pop_find_an_element_witness :
    (∀ C, some 1 = some C → 1 ≤ C) ∧
      (∀ c ∈ [call.push 1, call.push 2, call.push_front 3, call.pop 0 [],
          call.pop 0 [[other_thread.push 4]], call.stop], c.is_pop_timed = false) ∧
      run (concurrent_queue.new (some 1)) [call.push 1, call.push 2, call.push_front 3,
          call.pop 0 [], call.pop 0 [[other_thread.push 4]], call.stop]
        = Outcome.done (concurrent_queue.mk [] true (some 1)) ∧
      run (concurrent_queue.new (some 1)) [call.push 1, call.push 2, call.push_front 3,
          call.pop 0 [], call.pop 0 [[other_thread.push 4]], call.stop]
        ≠ Outcome.undefined :=
  ⟨by intro C h; cases h; decide, by decide, by decide,
    eviction_and_pop_find_an_element (some 1) [call.push 1, call.push 2, call.push_front 3,
      call.pop 0 [], call.pop 0 [[other_thread.push 4]], call.stop]
      (by intro C h; cases h; decide) (by decide)⟩

/-! ## C14 -/

end adn.threading
